import Mathlib

/-
Verification of the TritonPart timing-driven partitioning refinement core:
the cost-evaluation oracle GoldenEvaluator (src/par/src/TPEvaluator.h) and the
greedy hyperedge refinement pass TPgreedyRefine::Pass
(src/par/src/TPGreedyRefine.cpp).

Modelling conventions.
All float quantities of the C++ source (weights, costs, gains) are modelled as
integers: the properties under verification concern order, additivity and
comparison of costs, never floating-point rounding, and an ordered commutative
ring keeps every definition kernel-computable.  C++ std::vector indexing is
modelled by List.getD with default 0 (respectively the empty list), matrices as
lists of rows.  Bodies declared in TPEvaluator.h or TPRefiner.h but not present
in the excerpt are modelled from the specification; each such definition carries
a doc comment starting with "Modelled from the spec:".
-/

namespace par

/-- The hypergraph borrowed by the evaluator and the refinement pass
(TPHypergraph.h, outside the excerpt): incidence lists, multi-dimensional
vertex and hyperedge weights, timing attributes (slack) and derived timing
costs for hyperedges and critical paths, and placement coordinates.  A timing
path is kept both as its vertex sequence (vpaths) and its hyperedge sequence
(epaths), following the spec: paths are ordered sequences of
hyperedges/vertices with an associated criticality slack. -/
structure HGraph where
  num_vertices : Nat
  num_hyperedges : Nat
  dims : Nat
  hyperedges : List (List Nat)
  vertex_weights : List (List Int)
  hyperedge_weights : List (List Int)
  hyperedge_timing_attr : List Int
  hyperedge_timing_cost : List Int
  vpaths : List (List Nat)
  epaths : List (List Nat)
  path_timing_attr : List Int
  path_timing_cost : List Int
  placement : List (List Int)
deriving DecidableEq

/-- Configuration of the GoldenEvaluator, fixed at construction
(TPEvaluator.h lines 88-105 and the private members, lines 193-229). -/
structure GoldenEvaluator where
  num_parts : Nat
  extra_cut_delay : Int
  e_wt_factors : List Int
  timing_factor : Int
  path_wt_factor : Int
  snaking_wt_factor : Int
  timing_exp_factor : Int
  v_wt_factors : List Int
  placement_wt_factors : List Int
deriving DecidableEq

/-- The partitioning solution: a block id per vertex (TPEvaluator.h line 51). -/
abbrev TP_partition := List Nat

/-- Dot product of two weight vectors, the cost primitive of the evaluator. -/
def dotProduct (a b : List Int) : Int :=
  (List.zipWith (fun x y => x * y) a b).sum

/-- Dimension-wise sum of a collection of weight vectors, producing a row of
the given dimensionality (missing entries read as 0). -/
def SumVecs (dims : Nat) (ws : List (List Int)) : List Int :=
  (List.range dims).map (fun d => (ws.map (fun w => w.getD d 0)).sum)

/-- Modelled from the spec: GoldenEvaluator::GetNetDegrees is declared in
TPEvaluator.h (line 112) with its body outside the excerpt.  Per the spec it
recomputes, from scratch, the count of each hyperedge's incident vertices in
each block. -/
def GetNetDegrees (ev : GoldenEvaluator) (hg : HGraph) (solution : TP_partition) :
    List (List Int) :=
  hg.hyperedges.map (fun e =>
    (List.range ev.num_parts).map (fun b =>
      Int.ofNat ((e.filter (fun v => solution.getD v 0 == b)).length)))

/-- Modelled from the spec: GoldenEvaluator::GetBlockBalance is declared in
TPEvaluator.h (line 116) with its body outside the excerpt.  Per the spec it
recomputes each block's balance as the dimension-wise sum of the weight
vectors of the vertices currently assigned to it. -/
def GetBlockBalance (ev : GoldenEvaluator) (hg : HGraph) (solution : TP_partition) :
    List (List Int) :=
  (List.range ev.num_parts).map (fun b =>
    SumVecs hg.dims
      (((List.range hg.num_vertices).filter (fun v => solution.getD v 0 == b)).map
        (fun v => hg.vertex_weights.getD v [])))

/-- Modelled from the spec: the conversion of a slack value into a nonnegative
cost, an "exponential penalty of the normalized slack, scaled by
timing_exp_factor_".  The exact exponential form is outside the excerpt; it is
modelled by a fixed computable surrogate that is nonnegative (for a nonnegative
factor) and antitone in the slack, which is all the claims rely on. -/
def SlackPenalty (timing_exp_factor slack : Int) : Int :=
  timing_exp_factor * max 0 (1 - slack)

/-- Sequence of block ids visited by a list of vertices under a solution. -/
def BlockSeq (solution : TP_partition) (vs : List Nat) : List Nat :=
  vs.map (fun v => solution.getD v 0)

/-- Number of adjacent pairs of a block sequence lying in different blocks:
how many times a path crosses a block boundary. -/
def CutsAlong : List Nat → Nat
  | b :: c :: t => (if b = c then 0 else 1) + CutsAlong (c :: t)
  | _ => 0

/-- Block sequence with consecutive duplicates collapsed. -/
def CompressBlocks : List Nat → List Nat
  | [] => []
  | [b] => [b]
  | b :: c :: t => if b = c then CompressBlocks (c :: t) else b :: CompressBlocks (c :: t)

/-- Modelled from the spec: the snaking count of a path, the number of times
its compressed block sequence re-enters a block it already left (the spec
leaves the precise combinatorial definition open; this is one faithful
reading: repetitions in the compressed block sequence). -/
def SnakeCount (bs : List Nat) : Nat :=
  (CompressBlocks bs).length - (CompressBlocks bs).dedup.length

/-- Modelled from the spec: GoldenEvaluator::GetPathTimingScore is declared in
TPEvaluator.h (line 120) with its body outside the excerpt.  It converts the
path's slack attribute into a nonnegative cost via the slack penalty. -/
def GetPathTimingScore (ev : GoldenEvaluator) (hg : HGraph) (path_id : Nat) : Int :=
  SlackPenalty ev.timing_exp_factor (hg.path_timing_attr.getD path_id 0)

/-- Modelled from the spec: GoldenEvaluator::CalculatePathCost is declared in
TPEvaluator.h (line 123) with its body outside the excerpt.  Per the spec it
combines the path timing score with a path_wt_factor penalty per hyperedge of
the path actually cut and a snaking_wt_factor penalty for snaking. -/
def CalculatePathCost (ev : GoldenEvaluator) (hg : HGraph) (path_id : Nat)
    (solution : TP_partition) : Int :=
  let bs := BlockSeq solution (hg.vpaths.getD path_id [])
  GetPathTimingScore ev hg path_id
    + ev.path_wt_factor * Int.ofNat (CutsAlong bs)
    + ev.snaking_wt_factor * Int.ofNat (SnakeCount bs)

/-- Modelled from the spec: GoldenEvaluator::GetPathsCost (TPEvaluator.h line
128), the vector of CalculatePathCost over all paths. -/
def GetPathsCost (ev : GoldenEvaluator) (hg : HGraph) (solution : TP_partition) :
    List Int :=
  (List.range hg.vpaths.length).map (fun p => CalculatePathCost ev hg p solution)

/-- Modelled from the spec: GoldenEvaluator::GetTimingCuts (TPEvaluator.h line
133): total, worst and average number of cut hyperedges over the timing paths
(the float average is modelled with integer division). -/
def GetTimingCuts (ev : GoldenEvaluator) (hg : HGraph) (solution : TP_partition) :
    Int × Int × Int :=
  let cuts := (List.range hg.vpaths.length).map
    (fun p => Int.ofNat (CutsAlong (BlockSeq solution (hg.vpaths.getD p []))))
  (cuts.sum, cuts.foldl max 0, cuts.sum / Int.ofNat hg.vpaths.length)

/-- Modelled from the spec: GoldenEvaluator::CalculateHyperedgeTimingCost
(TPEvaluator.h line 137): the timing contribution of a hyperedge, the stored
timing cost scaled by timing_factor_. -/
def CalculateHyperedgeTimingCost (ev : GoldenEvaluator) (hg : HGraph) (e : Nat) : Int :=
  ev.timing_factor * hg.hyperedge_timing_cost.getD e 0

/-- Modelled from the spec: GoldenEvaluator::CalculateHyperedgeCost
(TPEvaluator.h line 140): dot product of e_wt_factors with the hyperedge's
weight vector, plus the timing contribution when timing is active. -/
def CalculateHyperedgeCost (ev : GoldenEvaluator) (hg : HGraph) (e : Nat) : Int :=
  dotProduct ev.e_wt_factors (hg.hyperedge_weights.getD e [])
    + CalculateHyperedgeTimingCost ev hg e

/-- Modelled from the spec: GoldenEvaluator::GetNormEdgeScore (TPEvaluator.h
line 143): hyperedge cost divided by its pin count minus one (float division
modelled with integer division). -/
def GetNormEdgeScore (ev : GoldenEvaluator) (hg : HGraph) (e : Nat) : Int :=
  CalculateHyperedgeCost ev hg e / Int.ofNat ((hg.hyperedges.getD e []).length - 1)

/-- Modelled from the spec: GoldenEvaluator::GetVertexWeightNorm
(TPEvaluator.h line 147): dot product of v_wt_factors with the vertex's
weight vector. -/
def GetVertexWeightNorm (ev : GoldenEvaluator) (hg : HGraph) (v : Nat) : Int :=
  dotProduct ev.v_wt_factors (hg.vertex_weights.getD v [])

/-- Modelled from the spec: GoldenEvaluator::GetPlacementScore (TPEvaluator.h
line 150): a weighted norm of the coordinate difference of two vertices,
modelled as the weighted sum of squared coordinate differences to stay inside
the ring. -/
def GetPlacementScore (ev : GoldenEvaluator) (hg : HGraph) (v u : Nat) : Int :=
  ((List.range ev.placement_wt_factors.length).map (fun d =>
    ev.placement_wt_factors.getD d 0 *
      ((hg.placement.getD v []).getD d 0 - (hg.placement.getD u []).getD d 0) ^ 2)).sum

/-- Modelled from the spec: the scalar GoldenEvaluator::GetAvgPlacementLoc
(TPEvaluator.h line 153): weight-proportional centroid of the first coordinate
of two vertices (float division modelled with integer division). -/
def GetAvgPlacementLoc (ev : GoldenEvaluator) (hg : HGraph) (v u : Nat) : Int :=
  let wv := GetVertexWeightNorm ev hg v
  let wu := GetVertexWeightNorm ev hg u
  (wv * (hg.placement.getD v []).getD 0 0 + wu * (hg.placement.getD u []).getD 0 0)
    / (wv + wu)

/-- Whether a hyperedge's incident vertices span more than one block under the
given solution. -/
def IsCutHyperedge (hg : HGraph) (solution : TP_partition) (e : Nat) : Bool :=
  2 ≤ ((hg.hyperedges.getD e []).map (fun v => solution.getD v 0)).dedup.length

/-- Modelled from the spec: GoldenEvaluator::GetCutHyperedges (TPEvaluator.h
line 162): the hyperedges whose incident vertices span more than one block. -/
def GetCutHyperedges (hg : HGraph) (solution : TP_partition) : List Nat :=
  (List.range hg.num_hyperedges).filter (IsCutHyperedge hg solution)

/-- Modelled from the spec: GoldenEvaluator::CutEvaluator (TPEvaluator.h line
169): the authoritative objective, the sum of CalculateHyperedgeCost over all
cut hyperedges, paired with the recomputed block balance matrix. -/
def CutEvaluator (ev : GoldenEvaluator) (hg : HGraph) (solution : TP_partition) :
    Int × List (List Int) :=
  (((GetCutHyperedges hg solution).map (fun e => CalculateHyperedgeCost ev hg e)).sum,
    GetBlockBalance ev hg solution)

/-- Modelled from the spec: GoldenEvaluator::InitializeTiming (TPEvaluator.h
line 180, body outside the excerpt).  Per the header comment it transforms
path_timing_attr_ into path_timing_cost_ and hyperedge_timing_attr_ into
hyperedge_timing_cost_, then overlays the path weights onto the hyperedges
each critical path traverses.  The overlay is written into the derived
timing-cost field as a function of the raw slack attributes only, which the
spec's idempotence requirement mandates. -/
def InitializeTiming (ev : GoldenEvaluator) (hg : HGraph) : HGraph :=
  let pcost := hg.path_timing_attr.map (fun s => SlackPenalty ev.timing_exp_factor s)
  { hg with
    path_timing_cost := pcost
    hyperedge_timing_cost := (List.range hg.num_hyperedges).map (fun e =>
      SlackPenalty ev.timing_exp_factor (hg.hyperedge_timing_attr.getD e 0)
        + (((List.range hg.epaths.length).filter
              (fun p => (hg.epaths.getD p []).contains e)).map
            (fun p => pcost.getD p 0)).sum) }

/-- Modelled from the spec: GoldenEvaluator::UpdateTiming (TPEvaluator.h line
191, body outside the excerpt).  Per the header comment and the spec it
injects extra_cut_delay_ on every hyperedge a critical path crosses due to a
block cut (reducing its slack), recomputes the slack of the affected paths,
then delegates to InitializeTiming to refresh the cost weights. -/
def UpdateTiming (ev : GoldenEvaluator) (hg : HGraph) (solution : TP_partition) : HGraph :=
  let hg1 := { hg with
    hyperedge_timing_attr := (List.range hg.num_hyperedges).map (fun e =>
      hg.hyperedge_timing_attr.getD e 0 -
        (if IsCutHyperedge hg solution e &&
            (List.range hg.epaths.length).any (fun p => (hg.epaths.getD p []).contains e)
          then ev.extra_cut_delay else 0))
    path_timing_attr := (List.range hg.epaths.length).map (fun p =>
      hg.path_timing_attr.getD p 0 -
        ev.extra_cut_delay *
          Int.ofNat (((hg.epaths.getD p []).filter
            (fun e => IsCutHyperedge hg solution e)).length)) }
  InitializeTiming ev hg1

/-- The move-candidate gain record (class HyperedgeGain of TPRefiner.h, outside
the excerpt): per the spec a record of the hyperedge id, the target block id
and the scalar gain; ids are C++ ints, -1 meaning "none". -/
structure HyperedgeGain where
  hyperedge : Int
  destination : Int
  gain : Int
deriving DecidableEq

/-- Modelled from the spec: the default-constructed HyperedgeGain built at
TPGreedyRefine.cpp line 93, the baseline "no move" candidate.  Its gain is set
to 0 by the pass itself (line 94, "we only accept positive gain"); the id
fields of a default gain record are -1, meaning no hyperedge and no target. -/
def DefaultHyperedgeGain : HyperedgeGain :=
  { hyperedge := -1, destination := -1, gain := 0 }

/-- Modelled from the spec: HGraph::GetHyperedgeVerWtSum (TPHypergraph.h,
outside the excerpt), the tie-break key of a gain record: the sum of the
incident-vertex weights of the hyperedge (summed over all weight dimensions);
an id designating no hyperedge contributes 0. -/
def GetHyperedgeVerWtSum (hg : HGraph) (e : Int) : Int :=
  if e < 0 then 0
  else ((hg.hyperedges.getD e.toNat []).map
    (fun v => (hg.vertex_weights.getD v []).sum)).sum

/-- The comparison lambda CompareGainHyperedge of TPgreedyRefine::Pass
(TPGreedyRefine.cpp lines 80-90): a is strictly better than b when its gain is
higher, or on a gain tie when the vertex weight summation of its hyperedge is
strictly smaller. -/
def CompareGainHyperedge (hg : HGraph) (a b : HyperedgeGain) : Bool :=
  if a.gain > b.gain then true
  else if a.gain = b.gain ∧
      GetHyperedgeVerWtSum hg a.hyperedge < GetHyperedgeVerWtSum hg b.hyperedge then
    true
  else false

/-- Modelled from the spec: TPrefiner::CheckHyperedgeMoveLegality is declared
in TPRefiner.h (outside the excerpt).  Per the spec, moving the hyperedge's
non-conforming incident vertices into the candidate block must not push any
dimension of that block's balance above max_block_balance; the check has no
side effect. -/
def CheckHyperedgeMoveLegality (hg : HGraph) (e to_pid : Nat) (solution : TP_partition)
    (block_balance max_block_balance : List (List Int)) : Bool :=
  let moved := (hg.hyperedges.getD e []).filter (fun v => solution.getD v 0 != to_pid)
  let row := block_balance.getD to_pid []
  let mrow := max_block_balance.getD to_pid []
  (List.range mrow.length).all (fun d =>
    row.getD d 0 + (moved.map (fun v => (hg.vertex_weights.getD v []).getD d 0)).sum
      ≤ mrow.getD d 0)

/-- Number of blocks in which a net-degree row is nonzero, over the blocks
0..num_parts-1: the size of the block_set built at TPGreedyRefine.cpp lines
62-67. -/
def StraddledBlockCount (num_parts : Nat) (ndRow : List Int) : Nat :=
  ((List.range num_parts).filter (fun b => decide (0 < ndRow.getD b 0))).length

/-- Modelled from the spec: TPrefiner::CalculateHyperedgeGain is declared in
TPRefiner.h (outside the excerpt).  Per the spec the gain is the current cut
cost at this hyperedge (zero if the hyperedge is uncut per net_degs) minus the
cost once the hyperedge is fully contained in the candidate block (zero), plus
the timing path-cost delta against cur_paths_cost, with every incident vertex
sent to the candidate block. -/
def CalculateHyperedgeGain (ev : GoldenEvaluator) (hg : HGraph) (e to_pid : Nat)
    (solution : TP_partition) (cur_paths_cost : List Int)
    (net_degs : List (List Int)) : HyperedgeGain :=
  let cutGain :=
    if 2 ≤ StraddledBlockCount ev.num_parts (net_degs.getD e [])
      then CalculateHyperedgeCost ev hg e else 0
  let movedSolution := (hg.hyperedges.getD e []).foldl (fun s v => s.set v to_pid) solution
  let pathDelta := ((List.range hg.vpaths.length).map (fun p =>
    cur_paths_cost.getD p 0 - CalculatePathCost ev hg p movedSolution)).sum
  { hyperedge := Int.ofNat e, destination := Int.ofNat to_pid, gain := cutGain + pathDelta }

/-- The mutable state threaded through a refinement pass: exactly the
reference parameters of TPgreedyRefine::Pass (TPGreedyRefine.cpp lines 49-55)
together with the pass-local accumulators total_gain and num_move (lines
57-58). -/
structure PassState where
  block_balance : List (List Int)
  net_degs : List (List Int)
  cur_paths_cost : List Int
  solution : TP_partition
  visited_vertices_flag : List Bool
  total_gain : Int
  num_move : Nat
deriving DecidableEq

/-- Dimension-wise addition of a weight vector onto a balance row, keeping the
row's length (the C++ elementwise += on a fixed-size vector). -/
def AddWeightToRow (row w : List Int) : List Int :=
  (List.range row.length).map (fun d => row.getD d 0 + w.getD d 0)

/-- Dimension-wise subtraction of a weight vector from a balance row, keeping
the row's length (the C++ elementwise -= on a fixed-size vector). -/
def SubWeightFromRow (row w : List Int) : List Int :=
  (List.range row.length).map (fun d => row.getD d 0 - w.getD d 0)

/-- Decrement a net-degree row at the source block, then increment it at the
destination block (the C++ net_degs[e][from]--; net_degs[e][to]++). -/
def IncDecRow (row : List Int) (fromB toB : Nat) : List Int :=
  let r1 := row.set fromB (row.getD fromB 0 - 1)
  r1.set toB (r1.getD toB 0 + 1)

/-- Modelled from the spec: moving one vertex into block to_pid, the unit step
of AcceptHyperedgeMove.  A vertex already in the target block is left alone;
otherwise the solution entry is rewritten, its weight vector moves between the
two balance rows, and the net-degree row of every hyperedge incident to the
vertex is updated incrementally (the spec's net-degree ground-truth invariant
requires every incident hyperedge's row to move with the vertex). -/
def MoveVertex (hg : HGraph) (to_pid v : Nat) (st : PassState) : PassState :=
  let fromB := st.solution.getD v 0
  if fromB = to_pid then st
  else
    let w := hg.vertex_weights.getD v []
    let bb1 := st.block_balance.set fromB
      (SubWeightFromRow (st.block_balance.getD fromB []) w)
    let bb2 := bb1.set to_pid (AddWeightToRow (bb1.getD to_pid []) w)
    { st with
      solution := st.solution.set v to_pid
      block_balance := bb2
      net_degs := List.zipWith
        (fun e row => if v ∈ e then IncDecRow row fromB to_pid else row)
        hg.hyperedges st.net_degs }

/-- Modelled from the spec: TPrefiner::AcceptHyperedgeMove is declared in
TPRefiner.h (outside the excerpt).  Per the spec committing the recorded move
sends every incident vertex of the hyperedge into the target block, updating
solution, block_balance and net_degs incrementally, refreshes cur_paths_cost,
and adds the recorded gain to the running total. -/
def AcceptHyperedgeMove (ev : GoldenEvaluator) (hg : HGraph) (g : HyperedgeGain)
    (st : PassState) : PassState :=
  let st1 := (hg.hyperedges.getD g.hyperedge.toNat []).foldl
    (fun s v => MoveVertex hg g.destination.toNat v s) st
  { st1 with
    cur_paths_cost := (List.range hg.vpaths.length).map
      (fun p => CalculatePathCost ev hg p st1.solution)
    total_gain := st1.total_gain + g.gain }

/-- One iteration of the candidate loop of TPgreedyRefine::Pass
(TPGreedyRefine.cpp lines 95-105): skip an illegal candidate block, otherwise
compute its gain record and replace the held best exactly when the comparison
lambda declares the new record strictly better. -/
def CandStep (ev : GoldenEvaluator) (hg : HGraph) (max_block_balance : List (List Int))
    (h : Nat) (st : PassState) (acc : Int × HyperedgeGain) (to_pid : Nat) :
    Int × HyperedgeGain :=
  if CheckHyperedgeMoveLegality hg h to_pid st.solution st.block_balance
      max_block_balance then
    if CompareGainHyperedge hg
        (CalculateHyperedgeGain ev hg h to_pid st.solution st.cur_paths_cost st.net_degs)
        acc.2 then
      (Int.ofNat to_pid,
        CalculateHyperedgeGain ev hg h to_pid st.solution st.cur_paths_cost st.net_degs)
    else acc
  else acc

/-- The candidate loop of TPgreedyRefine::Pass (TPGreedyRefine.cpp lines
92-105): fold CandStep over every target block in ascending order, starting
from best_candidate_block = -1 and the zero-gain baseline record. -/
def FindBestCandidate (ev : GoldenEvaluator) (hg : HGraph)
    (max_block_balance : List (List Int)) (h : Nat) (st : PassState) :
    Int × HyperedgeGain :=
  (List.range ev.num_parts).foldl (CandStep ev hg max_block_balance h st)
    (-1, DefaultHyperedgeGain)

/-- The hyperedge sweep of TPgreedyRefine::Pass (TPGreedyRefine.cpp lines
59-116): skip a hyperedge fully within one block; otherwise bump num_move and
return the whole state immediately once it reaches max_moves; otherwise select
the best legal candidate and commit it when a concrete target block exists. -/
def PassLoop (ev : GoldenEvaluator) (hg : HGraph) (max_block_balance : List (List Int))
    (max_moves : Nat) : List Nat → PassState → PassState
  | [], st => st
  | h :: rest, st =>
    if StraddledBlockCount ev.num_parts (st.net_degs.getD h []) ≤ 1 then
      PassLoop ev hg max_block_balance max_moves rest st
    else if max_moves ≤ st.num_move + 1 then { st with num_move := st.num_move + 1 }
    else if (FindBestCandidate ev hg max_block_balance h
        { st with num_move := st.num_move + 1 }).1 > -1 then
      PassLoop ev hg max_block_balance max_moves rest
        (AcceptHyperedgeMove ev hg
          (FindBestCandidate ev hg max_block_balance h
            { st with num_move := st.num_move + 1 }).2
          { st with num_move := st.num_move + 1 })
    else PassLoop ev hg max_block_balance max_moves rest
      { st with num_move := st.num_move + 1 }

/-- TPgreedyRefine::Pass (TPGreedyRefine.cpp lines 49-120): sweep the
hyperedges in ascending id order starting from zero total gain and zero moves;
the float return value of the C++ function is the total_gain field of the
resulting state. -/
def Pass (ev : GoldenEvaluator) (hg : HGraph) (max_block_balance : List (List Int))
    (max_moves : Nat) (block_balance net_degs : List (List Int))
    (cur_paths_cost : List Int) (solution : TP_partition)
    (visited_vertices_flag : List Bool) : PassState :=
  PassLoop ev hg max_block_balance max_moves (List.range hg.num_hyperedges)
    { block_balance := block_balance
      net_degs := net_degs
      cur_paths_cost := cur_paths_cost
      solution := solution
      visited_vertices_flag := visited_vertices_flag
      total_gain := 0
      num_move := 0 }

/-- The invariant maintained by the candidate fold of TPgreedyRefine::Pass:
either no candidate has been taken yet (best_candidate_block is -1 and the
held record is the zero-gain baseline), or the held record is the gain record
of a legal candidate block, its gain either strictly positive or zero with a
tie-break key strictly below the baseline's. -/
def BestCandInv (ev : GoldenEvaluator) (hg : HGraph) (mbb : List (List Int))
    (h : Nat) (st : PassState) (acc : Int × HyperedgeGain) : Prop :=
  (acc.1 = -1 ∧ acc.2 = DefaultHyperedgeGain) ∨
  (∃ to_pid : Nat, acc.1 = Int.ofNat to_pid ∧ to_pid < ev.num_parts ∧
    CheckHyperedgeMoveLegality hg h to_pid st.solution st.block_balance mbb = true ∧
    acc.2 = CalculateHyperedgeGain ev hg h to_pid st.solution st.cur_paths_cost
      st.net_degs ∧
    (0 < acc.2.gain ∨ (acc.2.gain = 0 ∧ GetHyperedgeVerWtSum hg acc.2.hyperedge < 0)))

/-- All vertex weight entries of the hypergraph are nonnegative (the spec's
weights are multi-dimensional resource weights such as area or power). -/
def NonnegVertexWeights (hg : HGraph) : Prop :=
  ∀ w ∈ hg.vertex_weights, ∀ x ∈ w, 0 ≤ x

/-- Every entry of the block balance matrix is at or below the corresponding
entry of max_block_balance (indices beyond either matrix read as 0). -/
def BalanceWithin (bb mbb : List (List Int)) : Prop :=
  ∀ b d : Nat, (bb.getD b []).getD d 0 ≤ (mbb.getD b []).getD d 0

/-- The max_block_balance rows cover the dimensions of the balance rows for
every real block: the dimensional-consistency precondition the spec places on
the caller. -/
def BalanceDimsCovered (nparts : Nat) (bb mbb : List (List Int)) : Prop :=
  ∀ b : Nat, b < nparts → (bb.getD b []).length ≤ (mbb.getD b []).length

/-- Well-formedness of the borrowed hypergraph: the incidence list has exactly
num_hyperedges entries, incident vertices are listed once and index real
vertices. -/
def WFHypergraph (hg : HGraph) : Prop :=
  hg.hyperedges.length = hg.num_hyperedges ∧
  ∀ e ∈ hg.hyperedges, e.Nodup ∧ ∀ v ∈ e, v < hg.num_vertices

/-- A solution assigns a block in range to every real vertex and has one entry
per vertex. -/
def SolutionOK (nparts : Nat) (hg : HGraph) (sol : TP_partition) : Prop :=
  sol.length = hg.num_vertices ∧ ∀ i : Nat, i < sol.length → sol.getD i 0 < nparts

/-- One query or update operation of the GoldenEvaluator public interface
(TPEvaluator.h lines 111-191). -/
inductive EvalOp where
  | getNetDegreesOp
  | getBlockBalanceOp
  | getPathTimingScoreOp (p : Nat)
  | calculatePathCostOp (p : Nat)
  | getPathsCostOp
  | getTimingCutsOp
  | calculateHyperedgeTimingCostOp (e : Nat)
  | calculateHyperedgeCostOp (e : Nat)
  | getNormEdgeScoreOp (e : Nat)
  | getVertexWeightNormOp (v : Nat)
  | getPlacementScoreOp (v u : Nat)
  | getAvgPlacementLocOp (v u : Nat)
  | getCutHyperedgesOp
  | cutEvaluatorOp (print_flag : Bool)
  | initializeTimingOp
  | updateTimingOp
deriving DecidableEq

/-- Result value of an evaluator operation. -/
inductive EvalValue where
  | intMat : List (List Int) → EvalValue
  | intRow : List Int → EvalValue
  | intVal : Int → EvalValue
  | natList : List Nat → EvalValue
  | tripleVal : Int × Int × Int → EvalValue
  | tokenVal : Int × List (List Int) → EvalValue
  | unitVal : EvalValue
deriving DecidableEq

/-- The full state visible to the evaluator: the borrowed hypergraph plus the
partition state owned by the refinement driver. -/
structure EvalState where
  hgraph : HGraph
  solution : TP_partition
  block_balance : List (List Int)
  net_degs : List (List Int)
  paths_cost : List Int
deriving DecidableEq

/-- One evaluator call as a state transformer: each operation returns its
value together with the state it leaves behind.  The query operations are
const member functions taking the solution by const reference (TPEvaluator.h);
only InitializeTiming and UpdateTiming rewrite anything, namely the hypergraph
they are handed. -/
def runOp (ev : GoldenEvaluator) (op : EvalOp) (s : EvalState) : EvalValue × EvalState :=
  match op with
  | .getNetDegreesOp => (.intMat (GetNetDegrees ev s.hgraph s.solution), s)
  | .getBlockBalanceOp => (.intMat (GetBlockBalance ev s.hgraph s.solution), s)
  | .getPathTimingScoreOp p => (.intVal (GetPathTimingScore ev s.hgraph p), s)
  | .calculatePathCostOp p => (.intVal (CalculatePathCost ev s.hgraph p s.solution), s)
  | .getPathsCostOp => (.intRow (GetPathsCost ev s.hgraph s.solution), s)
  | .getTimingCutsOp => (.tripleVal (GetTimingCuts ev s.hgraph s.solution), s)
  | .calculateHyperedgeTimingCostOp e =>
      (.intVal (CalculateHyperedgeTimingCost ev s.hgraph e), s)
  | .calculateHyperedgeCostOp e => (.intVal (CalculateHyperedgeCost ev s.hgraph e), s)
  | .getNormEdgeScoreOp e => (.intVal (GetNormEdgeScore ev s.hgraph e), s)
  | .getVertexWeightNormOp v => (.intVal (GetVertexWeightNorm ev s.hgraph v), s)
  | .getPlacementScoreOp v u => (.intVal (GetPlacementScore ev s.hgraph v u), s)
  | .getAvgPlacementLocOp v u => (.intVal (GetAvgPlacementLoc ev s.hgraph v u), s)
  | .getCutHyperedgesOp => (.natList (GetCutHyperedges s.hgraph s.solution), s)
  | .cutEvaluatorOp _ => (.tokenVal (CutEvaluator ev s.hgraph s.solution), s)
  | .initializeTimingOp => (.unitVal, { s with hgraph := InitializeTiming ev s.hgraph })
  | .updateTimingOp => (.unitVal, { s with hgraph := UpdateTiming ev s.hgraph s.solution })

/-- The 2-block scenario hypergraph of the spec (section 8): one hyperedge
over vertices 0, 1, 2, unit weights. -/
def SampleGraph : HGraph :=
  { num_vertices := 3, num_hyperedges := 1, dims := 1
    hyperedges := [[0, 1, 2]]
    vertex_weights := [[1], [1], [1]]
    hyperedge_weights := [[1]]
    hyperedge_timing_attr := [], hyperedge_timing_cost := []
    vpaths := [], epaths := [], path_timing_attr := [], path_timing_cost := []
    placement := [] }

/-- A 2-block evaluator configuration with unit hyperedge weight factor and
timing inactive. -/
def SampleEvaluator : GoldenEvaluator :=
  { num_parts := 2, extra_cut_delay := 0, e_wt_factors := [1]
    timing_factor := 0, path_wt_factor := 1, snaking_wt_factor := 1
    timing_exp_factor := 0, v_wt_factors := [], placement_wt_factors := [] }

/-- Unconstrained max block balance for the sample scenarios. -/
def SampleMaxBalance : List (List Int) := [[100], [100]]

/-- The pass state for the sample scenario, solution [0,0,1], with block
balance and net degrees freshly recomputed. -/
def SampleState : PassState :=
  { block_balance := [[2], [1]], net_degs := [[2, 1]], cur_paths_cost := []
    solution := [0, 0, 1], visited_vertices_flag := [], total_gain := 0, num_move := 0 }

/-- A hypergraph on which a greedy hyperedge move increases the total cut
cost: hyperedge 1 (cost 1) shares vertex 1 with hyperedge 0 (cost 5); with
solution [0,1,1] only hyperedge 1 is cut, and uncutting it by moving vertex 1
into block 0 cuts hyperedge 0. -/
def CexGraph : HGraph :=
  { num_vertices := 3, num_hyperedges := 2, dims := 1
    hyperedges := [[1, 2], [0, 1]]
    vertex_weights := [[1], [1], [1]]
    hyperedge_weights := [[5], [1]]
    hyperedge_timing_attr := [], hyperedge_timing_cost := []
    vpaths := [], epaths := [], path_timing_attr := [], path_timing_cost := []
    placement := [] }

/-- Two pass states that agree on every component except possibly the
visited_vertices_flag vector. -/
def FlagAgnosticEq (s1 s2 : PassState) : Prop :=
  s1.block_balance = s2.block_balance ∧ s1.net_degs = s2.net_degs ∧
  s1.cur_paths_cost = s2.cur_paths_cost ∧ s1.solution = s2.solution ∧
  s1.total_gain = s2.total_gain ∧ s1.num_move = s2.num_move

/-- The evaluator-visible state of the sample scenario. -/
def SampleEvalState : EvalState :=
  { hgraph := SampleGraph, solution := [0, 0, 1], block_balance := [[2], [1]]
    net_degs := [[2, 1]], paths_cost := [] }

theorem getD_mem_of_lt {α : Type} (l : List α) (n : Nat) (d : α) (h : n < l.length) :
    l.getD n d ∈ l := by
  rw [List.getD_eq_getElem?_getD, List.getElem?_eq_getElem h]
  exact List.getElem_mem h

theorem getD_of_le_length {α : Type} (l : List α) (n : Nat) (d : α) (h : l.length ≤ n) :
    l.getD n d = d := by
  rw [List.getD_eq_getElem?_getD, List.getElem?_eq_none h]
  rfl

theorem compareGain_true_iff (hg : HGraph) (a b : HyperedgeGain) :
    CompareGainHyperedge hg a b = true ↔
      (b.gain < a.gain ∨ (a.gain = b.gain ∧
        GetHyperedgeVerWtSum hg a.hyperedge < GetHyperedgeVerWtSum hg b.hyperedge)) := by
  unfold CompareGainHyperedge
  split_ifs with h1 h2
  · simp only [gt_iff_lt] at h1
    simp [h1]
  · simp [h2]
  · simp only [gt_iff_lt] at h1
    simp only [Bool.false_eq_true, false_iff]
    tauto

theorem defaultGain_gain : DefaultHyperedgeGain.gain = 0 := rfl

theorem verWtSum_default (hg : HGraph) :
    GetHyperedgeVerWtSum hg DefaultHyperedgeGain.hyperedge = 0 := by
  unfold GetHyperedgeVerWtSum DefaultHyperedgeGain
  norm_num

theorem verWtSum_nonneg (hg : HGraph) (hw : NonnegVertexWeights hg) (e : Int) :
    0 ≤ GetHyperedgeVerWtSum hg e := by
  unfold GetHyperedgeVerWtSum
  split
  · exact le_refl 0
  · apply List.sum_nonneg
    intro x hx
    simp only [List.mem_map] at hx
    obtain ⟨v, _, rfl⟩ := hx
    apply List.sum_nonneg
    intro y hy
    by_cases hv2 : v < hg.vertex_weights.length
    · exact hw _ (getD_mem_of_lt _ _ _ hv2) y hy
    · rw [getD_of_le_length _ _ _ (by omega)] at hy
      simp at hy

/-- C9: InitializeTiming is idempotent: it rewrites only the derived timing
cost fields, as a function of the raw slack attributes it never touches, so a
second invocation on an unchanged hypergraph reproduces the first one's result
exactly (all fields, in particular the hyperedge weight and path cost fields,
are equal). -/
theorem initializeTiming_idempotent (ev : GoldenEvaluator) (hg : HGraph) :
    InitializeTiming ev (InitializeTiming ev hg) = InitializeTiming ev hg := rfl

/-- C8: every GoldenEvaluator query operation leaves the partition solution,
block balance, net degrees and path-cost state unchanged, and the only
operations that change anything at all, InitializeTiming and UpdateTiming,
rewrite only the hypergraph's timing attribute and timing cost fields — the
partition state and every structural hypergraph field survive any
operation. -/
theorem evaluator_queries_are_pure (ev : GoldenEvaluator) (op : EvalOp) (s : EvalState) :
    ((runOp ev op s).2.solution = s.solution ∧
      (runOp ev op s).2.block_balance = s.block_balance ∧
      (runOp ev op s).2.net_degs = s.net_degs ∧
      (runOp ev op s).2.paths_cost = s.paths_cost) ∧
    ((runOp ev op s).2.hgraph.hyperedges = s.hgraph.hyperedges ∧
      (runOp ev op s).2.hgraph.vertex_weights = s.hgraph.vertex_weights ∧
      (runOp ev op s).2.hgraph.hyperedge_weights = s.hgraph.hyperedge_weights ∧
      (runOp ev op s).2.hgraph.vpaths = s.hgraph.vpaths ∧
      (runOp ev op s).2.hgraph.epaths = s.hgraph.epaths ∧
      (runOp ev op s).2.hgraph.placement = s.hgraph.placement ∧
      (runOp ev op s).2.hgraph.num_vertices = s.hgraph.num_vertices ∧
      (runOp ev op s).2.hgraph.num_hyperedges = s.hgraph.num_hyperedges ∧
      (runOp ev op s).2.hgraph.dims = s.hgraph.dims) ∧
    (op ≠ EvalOp.initializeTimingOp → op ≠ EvalOp.updateTimingOp →
      (runOp ev op s).2 = s) := by
  cases op <;> simp [runOp, InitializeTiming, UpdateTiming]

/-- Witness for C8 at a concrete query and state. -/
theorem evaluator_queries_are_pure_witness :
    EvalOp.getNetDegreesOp ≠ EvalOp.initializeTimingOp ∧
    EvalOp.getNetDegreesOp ≠ EvalOp.updateTimingOp ∧
    (runOp SampleEvaluator EvalOp.getNetDegreesOp SampleEvalState).2 = SampleEvalState :=
  ⟨by decide, by decide,
    (evaluator_queries_are_pure SampleEvaluator EvalOp.getNetDegreesOp
      SampleEvalState).2.2 (by decide) (by decide)⟩

/-- C3: once a straddled hyperedge bumps the move counter to the cap, the pass
returns at once: the state comes back with only num_move incremented — no
candidate for this hyperedge is evaluated or committed, the accumulated gain
is returned as is, and the remaining hyperedges are left unexamined. -/
theorem pass_cap_terminates_immediately (ev : GoldenEvaluator) (hg : HGraph)
    (mbb : List (List Int)) (max_moves : Nat) (h : Nat) (rest : List Nat)
    (st : PassState)
    (hstrad : 1 < StraddledBlockCount ev.num_parts (st.net_degs.getD h []))
    (hcap : max_moves ≤ st.num_move + 1) :
    PassLoop ev hg mbb max_moves (h :: rest) st =
      { st with num_move := st.num_move + 1 } := by
  rw [PassLoop]
  rw [if_neg (by omega), if_pos hcap]

/-- Witness for C3 at a concrete straddled hyperedge and exhausted budget. -/
theorem pass_cap_terminates_immediately_witness :
    1 < StraddledBlockCount SampleEvaluator.num_parts
        (SampleState.net_degs.getD 0 []) ∧
    (1 : Nat) ≤ SampleState.num_move + 1 ∧
    PassLoop SampleEvaluator SampleGraph SampleMaxBalance 1 [0] SampleState =
      { SampleState with num_move := SampleState.num_move + 1 } :=
  ⟨by decide, by decide,
    pass_cap_terminates_immediately SampleEvaluator SampleGraph SampleMaxBalance 1 0 []
      SampleState (by decide) (by decide)⟩

/-- C4: on a gain tie the comparison of TPGreedyRefine.cpp lines 80-90
declares a new candidate better exactly when the vertex weight summation of
its hyperedge is strictly smaller, and on a tie of both gain and weight sum it
returns false, so the candidate loop keeps the record it already holds — the
selection is a deterministic function of its inputs. -/
theorem tie_break_smaller_weight_then_incumbent (hg : HGraph) (a b : HyperedgeGain) :
    (a.gain = b.gain →
      (CompareGainHyperedge hg a b = true ↔
        GetHyperedgeVerWtSum hg a.hyperedge < GetHyperedgeVerWtSum hg b.hyperedge)) ∧
    (a.gain = b.gain →
      GetHyperedgeVerWtSum hg a.hyperedge = GetHyperedgeVerWtSum hg b.hyperedge →
      CompareGainHyperedge hg a b = false) := by
  constructor
  · intro heq
    rw [compareGain_true_iff]
    constructor
    · intro hc
      rcases hc with hlt | ⟨_, hw⟩
      · omega
      · exact hw
    · intro hw
      exact Or.inr ⟨heq, hw⟩
  · intro heq hw
    rcases hb : CompareGainHyperedge hg a b with _ | _
    · rfl
    · rw [compareGain_true_iff] at hb
      rcases hb with hlt | ⟨_, hlt⟩ <;> omega

theorem candStep_inv (ev : GoldenEvaluator) (hg : HGraph) (mbb : List (List Int))
    (h : Nat) (st : PassState) (acc : Int × HyperedgeGain) (to_pid : Nat)
    (hto : to_pid < ev.num_parts) (hacc : BestCandInv ev hg mbb h st acc) :
    BestCandInv ev hg mbb h st (CandStep ev hg mbb h st acc to_pid) := by
  unfold CandStep
  split_ifs with hleg hcmp
  · rw [compareGain_true_iff] at hcmp
    refine Or.inr ⟨to_pid, rfl, hto, hleg, rfl, ?_⟩
    dsimp only
    rcases hacc with ⟨_, hdef⟩ | ⟨t, _, _, _, _, hprop⟩
    · rw [hdef, defaultGain_gain, verWtSum_default] at hcmp
      exact hcmp
    · rcases hcmp with hlt | ⟨heq, hwlt⟩
      · rcases hprop with hp | ⟨hp0, _⟩ <;> exact Or.inl (by omega)
      · rcases hprop with hp | ⟨hp0, hpw⟩
        · exact Or.inl (by omega)
        · exact Or.inr ⟨by omega, by omega⟩
  · exact hacc
  · exact hacc

theorem candFold_inv (ev : GoldenEvaluator) (hg : HGraph) (mbb : List (List Int))
    (h : Nat) (st : PassState) (l : List Nat) (hl : ∀ x ∈ l, x < ev.num_parts)
    (acc : Int × HyperedgeGain) (hacc : BestCandInv ev hg mbb h st acc) :
    BestCandInv ev hg mbb h st (l.foldl (CandStep ev hg mbb h st) acc) := by
  induction l generalizing acc with
  | nil => exact hacc
  | cons x t ih =>
    rw [List.foldl_cons]
    exact ih (fun y hy => hl y (List.mem_cons_of_mem _ hy)) _
      (candStep_inv ev hg mbb h st acc x (hl x (List.mem_cons_self x t)) hacc)

theorem findBestCandidate_inv (ev : GoldenEvaluator) (hg : HGraph)
    (mbb : List (List Int)) (h : Nat) (st : PassState) :
    BestCandInv ev hg mbb h st (FindBestCandidate ev hg mbb h st) := by
  apply candFold_inv
  · intro x hx
    exact List.mem_range.mp hx
  · exact Or.inl ⟨rfl, rfl⟩

/-- C1: in the candidate selection of TPgreedyRefine::Pass, the baseline
record has gain exactly 0, and whenever a concrete candidate block was
selected (so the subsequent AcceptHyperedgeMove commits a move), the selected
record's gain is strictly positive: with nonnegative vertex weights no
candidate of gain 0 can ever beat the baseline, because on that gain tie the
comparison demands a tie-break key strictly below the baseline's 0. -/
theorem commit_requires_strictly_positive_gain (ev : GoldenEvaluator) (hg : HGraph)
    (mbb : List (List Int)) (h : Nat) (st : PassState)
    (hw : NonnegVertexWeights hg) :
    DefaultHyperedgeGain.gain = 0 ∧
    ((FindBestCandidate ev hg mbb h st).1 > -1 →
      0 < (FindBestCandidate ev hg mbb h st).2.gain) := by
  refine ⟨rfl, fun hpos => ?_⟩
  rcases findBestCandidate_inv ev hg mbb h st with ⟨h1, _⟩ | ⟨t, _, _, _, _, hprop⟩
  · omega
  · rcases hprop with hp | ⟨hp0, hpw⟩
    · exact hp
    · exact absurd hpw (not_lt.mpr (verWtSum_nonneg hg hw _))

/-- Witness for C1 on the spec's sample scenario, where the pass does select
a candidate block for hyperedge 0. -/
theorem commit_requires_strictly_positive_gain_witness :
    NonnegVertexWeights SampleGraph ∧
    (DefaultHyperedgeGain.gain = 0 ∧
      ((FindBestCandidate SampleEvaluator SampleGraph SampleMaxBalance 0 SampleState).1
          > -1 →
        0 < (FindBestCandidate SampleEvaluator SampleGraph SampleMaxBalance 0
          SampleState).2.gain)) :=
  ⟨by unfold NonnegVertexWeights; decide,
    commit_requires_strictly_positive_gain SampleEvaluator SampleGraph SampleMaxBalance 0
      SampleState (by unfold NonnegVertexWeights; decide)⟩

theorem moveVertex_total_gain (hg : HGraph) (t v : Nat) (st : PassState) :
    (MoveVertex hg t v st).total_gain = st.total_gain := by
  unfold MoveVertex
  dsimp only
  split <;> rfl

theorem foldMove_total_gain (hg : HGraph) (t : Nat) (vs : List Nat) (st : PassState) :
    (vs.foldl (fun s v => MoveVertex hg t v s) st).total_gain = st.total_gain := by
  induction vs generalizing st with
  | nil => rfl
  | cons x xs ih => rw [List.foldl_cons, ih, moveVertex_total_gain]

theorem accept_total_gain (ev : GoldenEvaluator) (hg : HGraph) (g : HyperedgeGain)
    (st : PassState) :
    (AcceptHyperedgeMove ev hg g st).total_gain = st.total_gain + g.gain := by
  unfold AcceptHyperedgeMove
  simp [foldMove_total_gain]

theorem selected_gain_nonneg (ev : GoldenEvaluator) (hg : HGraph)
    (mbb : List (List Int)) (h : Nat) (st : PassState)
    (hpos : (FindBestCandidate ev hg mbb h st).1 > -1) :
    0 ≤ (FindBestCandidate ev hg mbb h st).2.gain := by
  rcases findBestCandidate_inv ev hg mbb h st with ⟨h1, _⟩ | ⟨t, _, _, _, _, hprop⟩
  · omega
  · rcases hprop with hp | ⟨hp0, _⟩ <;> omega

theorem passLoop_gain_mono (ev : GoldenEvaluator) (hg : HGraph)
    (mbb : List (List Int)) (mm : Nat) (ids : List Nat) (st : PassState) :
    st.total_gain ≤ (PassLoop ev hg mbb mm ids st).total_gain := by
  induction ids generalizing st with
  | nil => exact le_refl _
  | cons h t ih =>
    rw [PassLoop]
    split_ifs with h1 h2 h3
    · exact ih st
    · exact le_refl _
    · refine le_trans ?_ (ih _)
      rw [accept_total_gain]
      have h4 := selected_gain_nonneg ev hg mbb h
        { st with num_move := st.num_move + 1 } h3
      have h5 : ({ st with num_move := st.num_move + 1 } : PassState).total_gain
          = st.total_gain := rfl
      omega
    · exact ih _

/-- C2 (amended): the total gain returned by TPgreedyRefine::Pass is always
nonnegative — no accepted move carries a negative gain, since a candidate can
only displace the zero-gain baseline by a strictly better comparison. -/
theorem pass_total_gain_nonneg (ev : GoldenEvaluator) (hg : HGraph)
    (mbb : List (List Int)) (mm : Nat) (bb nd : List (List Int)) (pc : List Int)
    (sol : TP_partition) (flag : List Bool) :
    0 ≤ (Pass ev hg mbb mm bb nd pc sol flag).total_gain :=
  passLoop_gain_mono ev hg mbb mm (List.range hg.num_hyperedges)
    { block_balance := bb, net_degs := nd, cur_paths_cost := pc, solution := sol
      visited_vertices_flag := flag, total_gain := 0, num_move := 0 }

/-- C2 counterexample: on CexGraph with the consistent initial state for
solution [0,1,1], the pass returns gain 1 but raises the CutEvaluator total
cost from 1 to 5: uncutting hyperedge 1 moves vertex 1 and thereby cuts
hyperedge 0 (cost 5), a side effect the hyperedge-local gain does not see, so
neither the claimed inequality nor the claimed equality holds. -/
theorem pass_cut_cost_not_monotone_cex :
    (CutEvaluator SampleEvaluator CexGraph [0, 1, 1]).1 = 1 ∧
    (Pass SampleEvaluator CexGraph SampleMaxBalance 100
      (GetBlockBalance SampleEvaluator CexGraph [0, 1, 1])
      (GetNetDegrees SampleEvaluator CexGraph [0, 1, 1])
      (GetPathsCost SampleEvaluator CexGraph [0, 1, 1]) [0, 1, 1] []).total_gain = 1 ∧
    (CutEvaluator SampleEvaluator CexGraph
      (Pass SampleEvaluator CexGraph SampleMaxBalance 100
        (GetBlockBalance SampleEvaluator CexGraph [0, 1, 1])
        (GetNetDegrees SampleEvaluator CexGraph [0, 1, 1])
        (GetPathsCost SampleEvaluator CexGraph [0, 1, 1]) [0, 1, 1] []).solution).1 = 5 ∧
    ¬ ((CutEvaluator SampleEvaluator CexGraph
        (Pass SampleEvaluator CexGraph SampleMaxBalance 100
          (GetBlockBalance SampleEvaluator CexGraph [0, 1, 1])
          (GetNetDegrees SampleEvaluator CexGraph [0, 1, 1])
          (GetPathsCost SampleEvaluator CexGraph [0, 1, 1]) [0, 1, 1] []).solution).1
      ≤ (CutEvaluator SampleEvaluator CexGraph [0, 1, 1]).1) := by
  decide

theorem moveVertex_flag_pres (hg : HGraph) (t v : Nat) (s : PassState) :
    (MoveVertex hg t v s).visited_vertices_flag = s.visited_vertices_flag := by
  unfold MoveVertex
  dsimp only
  split <;> rfl

theorem moveVertex_congr (hg : HGraph) (t v : Nat) (s1 s2 : PassState)
    (h : FlagAgnosticEq s1 s2) :
    FlagAgnosticEq (MoveVertex hg t v s1) (MoveVertex hg t v s2) := by
  obtain ⟨hbb, hnd, hpc, hsol, htg, hnm⟩ := h
  unfold MoveVertex
  dsimp only
  rw [hsol, hbb, hnd, hpc, htg, hnm]
  split_ifs
  · exact ⟨hbb, hnd, hpc, hsol, htg, hnm⟩
  · exact ⟨rfl, rfl, rfl, rfl, rfl, rfl⟩

theorem foldMove_flag_pres (hg : HGraph) (t : Nat) (vs : List Nat) (s : PassState) :
    (vs.foldl (fun s v => MoveVertex hg t v s) s).visited_vertices_flag =
      s.visited_vertices_flag := by
  induction vs generalizing s with
  | nil => rfl
  | cons x xs ih => rw [List.foldl_cons, ih, moveVertex_flag_pres]

theorem foldMove_congr (hg : HGraph) (t : Nat) (vs : List Nat) (s1 s2 : PassState)
    (h : FlagAgnosticEq s1 s2) :
    FlagAgnosticEq (vs.foldl (fun s v => MoveVertex hg t v s) s1)
      (vs.foldl (fun s v => MoveVertex hg t v s) s2) := by
  induction vs generalizing s1 s2 with
  | nil => exact h
  | cons x xs ih =>
    rw [List.foldl_cons, List.foldl_cons]
    exact ih _ _ (moveVertex_congr hg t x s1 s2 h)

theorem accept_flag_pres (ev : GoldenEvaluator) (hg : HGraph) (g : HyperedgeGain)
    (s : PassState) :
    (AcceptHyperedgeMove ev hg g s).visited_vertices_flag =
      s.visited_vertices_flag := by
  unfold AcceptHyperedgeMove
  dsimp only
  rw [foldMove_flag_pres]

theorem accept_congr (ev : GoldenEvaluator) (hg : HGraph) (g : HyperedgeGain)
    (s1 s2 : PassState) (h : FlagAgnosticEq s1 s2) :
    FlagAgnosticEq (AcceptHyperedgeMove ev hg g s1) (AcceptHyperedgeMove ev hg g s2) := by
  unfold AcceptHyperedgeMove
  obtain ⟨hbb, hnd, hpc, hsol, htg, hnm⟩ :=
    foldMove_congr hg g.destination.toNat (hg.hyperedges.getD g.hyperedge.toNat []) s1 s2 h
  refine ⟨hbb, hnd, ?_, hsol, ?_, hnm⟩
  · dsimp only
    rw [hsol]
  · dsimp only
    rw [htg]

theorem findBest_congr (ev : GoldenEvaluator) (hg : HGraph) (mbb : List (List Int))
    (h : Nat) (s1 s2 : PassState) (hbb : s1.block_balance = s2.block_balance)
    (hnd : s1.net_degs = s2.net_degs) (hpc : s1.cur_paths_cost = s2.cur_paths_cost)
    (hsol : s1.solution = s2.solution) :
    FindBestCandidate ev hg mbb h s1 = FindBestCandidate ev hg mbb h s2 := by
  unfold FindBestCandidate CandStep
  rw [hbb, hnd, hpc, hsol]

theorem passLoop_congr_flag (ev : GoldenEvaluator) (hg : HGraph) (mbb : List (List Int))
    (mm : Nat) (ids : List Nat) :
    ∀ s1 s2 : PassState, FlagAgnosticEq s1 s2 →
      FlagAgnosticEq (PassLoop ev hg mbb mm ids s1) (PassLoop ev hg mbb mm ids s2) ∧
      (PassLoop ev hg mbb mm ids s1).visited_vertices_flag =
        s1.visited_vertices_flag := by
  induction ids with
  | nil => exact fun s1 s2 h => ⟨h, rfl⟩
  | cons h t ih =>
    intro s1 s2 hag
    obtain ⟨hbb, hnd, hpc, hsol, htg, hnm⟩ := hag
    have hag1 : FlagAgnosticEq ({ s1 with num_move := s1.num_move + 1 } : PassState)
        ({ s2 with num_move := s2.num_move + 1 } : PassState) := by
      refine ⟨hbb, hnd, hpc, hsol, htg, ?_⟩
      dsimp only
      rw [hnm]
    have hfb : FindBestCandidate ev hg mbb h { s1 with num_move := s1.num_move + 1 } =
        FindBestCandidate ev hg mbb h { s2 with num_move := s2.num_move + 1 } :=
      findBest_congr ev hg mbb h _ _ hbb hnd hpc hsol
    rw [PassLoop, PassLoop, hfb]
    by_cases hc1 : StraddledBlockCount ev.num_parts (s2.net_degs.getD h []) ≤ 1
    · rw [if_pos (by rw [hnd]; exact hc1), if_pos hc1]
      exact ih s1 s2 ⟨hbb, hnd, hpc, hsol, htg, hnm⟩
    · rw [if_neg (by rw [hnd]; exact hc1), if_neg hc1]
      by_cases hc2 : mm ≤ s2.num_move + 1
      · rw [if_pos (by rw [hnm]; exact hc2), if_pos hc2]
        exact ⟨⟨hbb, hnd, hpc, hsol, htg, by dsimp only; rw [hnm]⟩, rfl⟩
      · rw [if_neg (by rw [hnm]; exact hc2), if_neg hc2]
        by_cases hc3 : (FindBestCandidate ev hg mbb h
            { s2 with num_move := s2.num_move + 1 }).1 > -1
        · rw [if_pos hc3, if_pos hc3]
          have hacc := accept_congr ev hg
            (FindBestCandidate ev hg mbb h { s2 with num_move := s2.num_move + 1 }).2
            _ _ hag1
          refine ⟨(ih _ _ hacc).1, ?_⟩
          rw [(ih _ _ hacc).2, accept_flag_pres]
        · rw [if_neg hc3, if_neg hc3]
          exact ⟨(ih _ _ hag1).1, (ih _ _ hag1).2⟩

/-- C10: TPgreedyRefine::Pass never reads or writes visited_vertices_flag:
the flag vector comes back exactly as passed, and every other component of
the resulting state — and in particular the returned gain — is the same for
any two flag vectors. -/
theorem pass_ignores_visited_vertices_flag (ev : GoldenEvaluator) (hg : HGraph)
    (mbb : List (List Int)) (mm : Nat) (bb nd : List (List Int)) (pc : List Int)
    (sol : TP_partition) (f1 f2 : List Bool) :
    (Pass ev hg mbb mm bb nd pc sol f1).visited_vertices_flag = f1 ∧
    (Pass ev hg mbb mm bb nd pc sol f1).solution =
      (Pass ev hg mbb mm bb nd pc sol f2).solution ∧
    (Pass ev hg mbb mm bb nd pc sol f1).block_balance =
      (Pass ev hg mbb mm bb nd pc sol f2).block_balance ∧
    (Pass ev hg mbb mm bb nd pc sol f1).net_degs =
      (Pass ev hg mbb mm bb nd pc sol f2).net_degs ∧
    (Pass ev hg mbb mm bb nd pc sol f1).cur_paths_cost =
      (Pass ev hg mbb mm bb nd pc sol f2).cur_paths_cost ∧
    (Pass ev hg mbb mm bb nd pc sol f1).total_gain =
      (Pass ev hg mbb mm bb nd pc sol f2).total_gain ∧
    (Pass ev hg mbb mm bb nd pc sol f1).num_move =
      (Pass ev hg mbb mm bb nd pc sol f2).num_move := by
  have key := passLoop_congr_flag ev hg mbb mm (List.range hg.num_hyperedges)
    { block_balance := bb, net_degs := nd, cur_paths_cost := pc, solution := sol
      visited_vertices_flag := f1, total_gain := 0, num_move := 0 }
    { block_balance := bb, net_degs := nd, cur_paths_cost := pc, solution := sol
      visited_vertices_flag := f2, total_gain := 0, num_move := 0 }
    ⟨rfl, rfl, rfl, rfl, rfl, rfl⟩
  obtain ⟨⟨hbb, hnd, hpc, hsol, htg, hnm⟩, hflag⟩ := key
  exact ⟨hflag, hsol, hbb, hnd, hpc, htg, hnm⟩

theorem passLoop_skip (ev : GoldenEvaluator) (hg : HGraph) (mbb : List (List Int))
    (mm : Nat) (h : Nat) (rest : List Nat) (st : PassState)
    (hs : StraddledBlockCount ev.num_parts (st.net_degs.getD h []) ≤ 1) :
    PassLoop ev hg mbb mm (h :: rest) st = PassLoop ev hg mbb mm rest st := by
  rw [PassLoop, if_pos hs]

theorem passLoop_all_skip (ev : GoldenEvaluator) (hg : HGraph) (mbb : List (List Int))
    (mm : Nat) (ids : List Nat) (st : PassState)
    (hall : ∀ h ∈ ids, StraddledBlockCount ev.num_parts (st.net_degs.getD h []) ≤ 1) :
    PassLoop ev hg mbb mm ids st = st := by
  induction ids with
  | nil => rfl
  | cons h t ih =>
    rw [passLoop_skip ev hg mbb mm h t st (hall h (List.mem_cons_self h t))]
    exact ih (fun y hy => hall y (List.mem_cons_of_mem _ hy))

theorem getD_map_of_lt {α β : Type} (f : α → β) (l : List α) (n : Nat) (d : β)
    (hn : n < l.length) : (l.map f).getD n d = f l[n] := by
  rw [List.getD_eq_getElem?_getD, List.getElem?_map, List.getElem?_eq_getElem hn]
  rfl

theorem filter_length_le_one {l : List Nat} (hnd : l.Nodup) (c : Nat) (p : Nat → Bool)
    (hp : ∀ x ∈ l, p x = true → x = c) : (l.filter p).length ≤ 1 := by
  have hnd2 : (l.filter p).Nodup := hnd.filter p
  have hall : ∀ x ∈ l.filter p, x = c := fun x hx =>
    hp x (List.mem_of_mem_filter hx) (List.of_mem_filter hx)
  match hm : l.filter p with
  | [] => simp
  | [a] => simp
  | a :: b :: t =>
    exfalso
    rw [hm] at hnd2 hall
    have ha := hall a (List.mem_cons_self _ _)
    have hb := hall b (List.mem_cons_of_mem _ (List.mem_cons_self _ _))
    have hne : a ≠ b := by
      intro hab
      exact (List.nodup_cons.mp hnd2).1 (hab ▸ List.mem_cons_self b t)
    omega

theorem straddled_nil (n : Nat) : StraddledBlockCount n [] = 0 := by
  simp [StraddledBlockCount, List.getD]

theorem netDegrees_single_block (ev : GoldenEvaluator) (hg : HGraph)
    (sol : TP_partition) (c : Nat) (h : Nat)
    (hwf : WFHypergraph hg) (hvert : sol.length = hg.num_vertices)
    (hsolc : ∀ i, i < sol.length → sol.getD i 0 = c) :
    StraddledBlockCount ev.num_parts ((GetNetDegrees ev hg sol).getD h []) ≤ 1 := by
  by_cases hh : h < hg.hyperedges.length
  · unfold GetNetDegrees
    rw [getD_map_of_lt _ _ _ _ hh]
    unfold StraddledBlockCount
    apply filter_length_le_one (List.nodup_range ev.num_parts) c
    intro b hb hpb
    rw [decide_eq_true_iff] at hpb
    rw [getD_map_of_lt _ _ _ _ (by simpa using List.mem_range.mp hb)] at hpb
    rw [List.getElem_range] at hpb
    obtain ⟨v, hv⟩ := List.exists_mem_of_length_pos (Int.ofNat_pos.mp hpb)
    have hvmem : v ∈ hg.hyperedges[h] := List.mem_of_mem_filter hv
    have hvb : sol.getD v 0 = b := by
      have := List.of_mem_filter hv
      simpa using this
    have hvlt : v < hg.num_vertices :=
      (hwf.2 _ (List.getElem_mem hh)).2 v hvmem
    have := hsolc v (by omega)
    omega
  · unfold GetNetDegrees
    rw [getD_of_le_length _ _ _ (by simpa using Nat.le_of_not_lt hh)]
    rw [straddled_nil]
    omega

/-- C7: TPgreedyRefine::Pass skips every hyperedge whose net-degree row is
nonzero in at most one block, leaving the whole state untouched for that
hyperedge; consequently, on a solution assigning all vertices to a single
block, with net_degs freshly recomputed, the pass is a no-op: it returns gain
0 and hands back every state component unchanged. -/
theorem pass_noop_on_single_block (ev : GoldenEvaluator) (hg : HGraph)
    (mbb : List (List Int)) (mm : Nat) (bb : List (List Int)) (pc : List Int)
    (sol : TP_partition) (flag : List Bool) (c : Nat)
    (hwf : WFHypergraph hg) (hvert : sol.length = hg.num_vertices)
    (hsolc : ∀ i, i < sol.length → sol.getD i 0 = c) :
    (∀ (h : Nat) (rest : List Nat) (st : PassState),
      StraddledBlockCount ev.num_parts (st.net_degs.getD h []) ≤ 1 →
      PassLoop ev hg mbb mm (h :: rest) st = PassLoop ev hg mbb mm rest st) ∧
    Pass ev hg mbb mm bb (GetNetDegrees ev hg sol) pc sol flag =
      { block_balance := bb, net_degs := GetNetDegrees ev hg sol, cur_paths_cost := pc
        solution := sol, visited_vertices_flag := flag, total_gain := 0, num_move := 0 } := by
  constructor
  · intro h rest st hs
    exact passLoop_skip ev hg mbb mm h rest st hs
  · apply passLoop_all_skip
    intro h _
    exact netDegrees_single_block ev hg sol c h hwf hvert hsolc

/-- Witness for C7: the sample hypergraph with every vertex in block 0. -/
theorem pass_noop_on_single_block_witness :
    WFHypergraph SampleGraph ∧
    ([0, 0, 0] : TP_partition).length = SampleGraph.num_vertices ∧
    (∀ i, i < ([0, 0, 0] : TP_partition).length →
      ([0, 0, 0] : TP_partition).getD i 0 = 0) ∧
    Pass SampleEvaluator SampleGraph SampleMaxBalance 100 [[3], [0]]
        (GetNetDegrees SampleEvaluator SampleGraph [0, 0, 0]) [] [0, 0, 0] [] =
      { block_balance := [[3], [0]]
        net_degs := GetNetDegrees SampleEvaluator SampleGraph [0, 0, 0]
        cur_paths_cost := [], solution := [0, 0, 0], visited_vertices_flag := []
        total_gain := 0, num_move := 0 } :=
  ⟨by unfold WFHypergraph; decide, by decide, by decide,
    (pass_noop_on_single_block SampleEvaluator SampleGraph SampleMaxBalance 100
      [[3], [0]] [] [0, 0, 0] [] 0 (by unfold WFHypergraph; decide) (by decide)
      (by decide)).2⟩

theorem getD_eq_getElem {α : Type} (l : List α) (n : Nat) (d : α) (h : n < l.length) :
    l.getD n d = l[n] := by
  rw [List.getD_eq_getElem?_getD, List.getElem?_eq_getElem h]
  rfl

theorem getD_set_self {α : Type} (l : List α) (i : Nat) (x d : α) (h : i < l.length) :
    (l.set i x).getD i d = x := by
  simp [List.getD, List.getElem?_set_self, h]

theorem getD_set_ne {α : Type} (l : List α) (i j : Nat) (x d : α) (h : i ≠ j) :
    (l.set i x).getD j d = l.getD j d := by
  rw [List.getD_eq_getElem?_getD, List.getElem?_set_ne h, ← List.getD_eq_getElem?_getD]

theorem sum_map_add {α : Type} (l : List α) (f g : α → Int) :
    (l.map (fun x => f x + g x)).sum = (l.map f).sum + (l.map g).sum := by
  induction l with
  | nil => simp
  | cons x t ih =>
    simp only [List.map_cons, List.sum_cons, ih]
    ring

theorem sum_indicator_range (n c : Nat) :
    ((List.range n).map (fun b => if c = b then (1 : Int) else 0)).sum =
      if c < n then 1 else 0 := by
  induction n with
  | zero => simp
  | succ m ih =>
    rw [List.range_succ, List.map_append, List.sum_append, ih]
    simp only [List.map_cons, List.map_nil, List.sum_cons, List.sum_nil]
    split_ifs <;> omega

theorem count_sum (n : Nat) (sol : TP_partition) (e : List Nat)
    (he : ∀ u ∈ e, sol.getD u 0 < n) :
    ((List.range n).map
      (fun b => Int.ofNat ((e.filter (fun u => sol.getD u 0 == b)).length))).sum =
      Int.ofNat e.length := by
  induction e with
  | nil => simp
  | cons u t ih =>
    have hu := he u (List.mem_cons_self u t)
    have hsplit : ∀ b : Nat,
        Int.ofNat (((u :: t).filter (fun x => sol.getD x 0 == b)).length) =
          (if sol.getD u 0 = b then (1 : Int) else 0) +
            Int.ofNat ((t.filter (fun x => sol.getD x 0 == b)).length) := by
      intro b
      rw [List.filter_cons]
      by_cases hb : sol.getD u 0 = b
      · rw [if_pos (beq_iff_eq.mpr hb), if_pos hb]
        simp only [List.length_cons, Int.ofNat_eq_coe]
        omega
      · rw [if_neg (by simpa using hb), if_neg hb]
        omega
    rw [List.map_congr_left (fun b _ => hsplit b), sum_map_add, sum_indicator_range,
      ih (fun x hx => he x (List.mem_cons_of_mem _ hx)), if_pos hu]
    simp only [List.length_cons, Int.ofNat_eq_coe]
    omega

theorem count_erase_decomp {e : List Nat} {v : Nat} (hv : v ∈ e) (p : Nat → Bool) :
    (e.filter p).length =
      ((e.erase v).filter p).length + (if p v = true then 1 else 0) := by
  have hperm := (List.perm_cons_erase hv).filter p
  rw [hperm.length_eq, List.filter_cons]
  by_cases hp : p v = true
  · simp [hp]
  · simp [hp]

theorem getNetDegrees_row (ev : GoldenEvaluator) (hg : HGraph) (sol : TP_partition)
    (i : Nat) (hi : i < hg.hyperedges.length) :
    (GetNetDegrees ev hg sol).getD i [] =
      (List.range ev.num_parts).map
        (fun b => Int.ofNat (((hg.hyperedges[i]).filter
          (fun u => sol.getD u 0 == b)).length)) := by
  unfold GetNetDegrees
  rw [getD_map_of_lt _ _ _ _ hi]

theorem getNetDegrees_row_oob (ev : GoldenEvaluator) (hg : HGraph) (sol : TP_partition)
    (i : Nat) (hi : hg.hyperedges.length ≤ i) :
    (GetNetDegrees ev hg sol).getD i [] = [] := by
  unfold GetNetDegrees
  rw [getD_of_le_length _ _ _ (by simpa using hi)]

theorem netDegrees_row_sum (ev : GoldenEvaluator) (hg : HGraph) (sol : TP_partition)
    (hval : ∀ i, i < sol.length → sol.getD i 0 < ev.num_parts)
    (hlen : sol.length = hg.num_vertices)
    (hwf : WFHypergraph hg) (i : Nat) :
    ((GetNetDegrees ev hg sol).getD i []).sum =
      Int.ofNat ((hg.hyperedges.getD i []).length) := by
  by_cases hi : i < hg.hyperedges.length
  · rw [getNetDegrees_row ev hg sol i hi, getD_eq_getElem _ _ _ hi]
    apply count_sum
    intro u hu
    have hu2 : u < hg.num_vertices := (hwf.2 _ (List.getElem_mem hi)).2 u hu
    exact hval u (by omega)
  · rw [getNetDegrees_row_oob ev hg sol i (by omega),
      getD_of_le_length _ _ _ (by omega)]
    rfl

theorem zipWith_map_self {α β : Type} (f : α → β → β) (g : α → β) (l : List α) :
    List.zipWith f l (l.map g) = l.map (fun a => f a (g a)) := by
  induction l with
  | nil => rfl
  | cons x t ih => simp [ih]

theorem incDecRow_length (row : List Int) (fromB toB : Nat) :
    (IncDecRow row fromB toB).length = row.length := by
  simp [IncDecRow]

theorem moveVertex_netdegs (ev : GoldenEvaluator) (hg : HGraph) (toB v : Nat)
    (st : PassState)
    (hwf : WFHypergraph hg)
    (hlen : st.solution.length = hg.num_vertices)
    (hval : ∀ i, i < st.solution.length → st.solution.getD i 0 < ev.num_parts)
    (hnd : st.net_degs = GetNetDegrees ev hg st.solution)
    (hv : v < hg.num_vertices)
    (hto : toB < ev.num_parts) :
    (MoveVertex hg toB v st).net_degs =
      GetNetDegrees ev hg (MoveVertex hg toB v st).solution ∧
    (MoveVertex hg toB v st).solution.length = hg.num_vertices ∧
    (∀ i, i < (MoveVertex hg toB v st).solution.length →
      (MoveVertex hg toB v st).solution.getD i 0 < ev.num_parts) := by
  unfold MoveVertex
  dsimp only
  by_cases hc : st.solution.getD v 0 = toB
  · rw [if_pos hc]
    exact ⟨hnd, hlen, hval⟩
  · rw [if_neg hc]
    dsimp only
    have hvlt : v < st.solution.length := by
      rw [hlen]
      exact hv
    refine ⟨?_, ?_, ?_⟩
    · rw [hnd]
      unfold GetNetDegrees
      rw [zipWith_map_self]
      apply List.map_congr_left
      intro e he
      obtain ⟨hnodup, hbound⟩ := hwf.2 e he
      by_cases hve : v ∈ e
      · rw [if_pos hve]
        have hfromlt : st.solution.getD v 0 < ev.num_parts := hval v hvlt
        have hsolv : (st.solution.set v toB).getD v 0 = toB := getD_set_self _ _ _ _ hvlt
        have herase : ∀ b : Nat,
            ((e.erase v).filter (fun u => (st.solution.set v toB).getD u 0 == b)).length =
            ((e.erase v).filter (fun u => st.solution.getD u 0 == b)).length := by
          intro b
          congr 1
          apply List.filter_congr
          intro u hu
          have huv : u ≠ v := ((hnodup.mem_erase_iff).mp hu).1
          rw [getD_set_ne _ _ _ _ _ (Ne.symm huv)]
        have hcount : ∀ b : Nat,
            ((e.filter (fun u => st.solution.getD u 0 == b)).length =
              ((e.erase v).filter (fun u => st.solution.getD u 0 == b)).length +
                (if st.solution.getD v 0 = b then 1 else 0)) := by
          intro b
          rw [count_erase_decomp hve]
          by_cases hb : st.solution.getD v 0 = b
          · rw [if_pos (beq_iff_eq.mpr hb), if_pos hb]
          · rw [if_neg (by simpa using hb), if_neg hb]
        have hcount2 : ∀ b : Nat,
            ((e.filter (fun u => (st.solution.set v toB).getD u 0 == b)).length =
              ((e.erase v).filter (fun u => st.solution.getD u 0 == b)).length +
                (if toB = b then 1 else 0)) := by
          intro b
          rw [count_erase_decomp hve, herase]
          by_cases hb : toB = b
          · rw [if_pos (by rw [hsolv]; exact beq_iff_eq.mpr hb), if_pos hb]
          · rw [if_neg (by rw [hsolv]; simpa using hb), if_neg hb]
        apply List.ext_getElem
        · rw [incDecRow_length]
          simp
        · intro b h1 h2
          have hb : b < ev.num_parts := by
            rw [incDecRow_length] at h1
            simpa using h1
          rw [← getD_eq_getElem _ _ 0 h1, ← getD_eq_getElem _ _ 0 h2]
          have hrow : ∀ (s : TP_partition) (b : Nat), b < ev.num_parts →
              ((List.range ev.num_parts).map (fun b2 => Int.ofNat
                ((e.filter (fun u => s.getD u 0 == b2)).length))).getD b 0 =
              Int.ofNat ((e.filter (fun u => s.getD u 0 == b)).length) := by
            intro s b2 hb2
            rw [getD_map_of_lt _ _ _ _ (by simpa using hb2), List.getElem_range]
          rw [hrow _ b hb]
          unfold IncDecRow
          have hr1len : ((List.range ev.num_parts).map (fun b2 => Int.ofNat
              ((e.filter (fun u => st.solution.getD u 0 == b2)).length))).length =
              ev.num_parts := by simp
          by_cases hbto : b = toB
          · subst hbto
            rw [getD_set_self _ _ _ _ (by rw [List.length_set, hr1len]; exact hb)]
            rw [getD_set_ne _ _ _ _ _ hc, hrow _ _ hb]
            rw [hcount _, hcount2 _, if_neg hc, if_pos rfl]
            simp only [Int.ofNat_eq_coe]
            omega
          · rw [getD_set_ne _ _ _ _ _ (fun hh => hbto hh.symm)]
            by_cases hbfrom : b = st.solution.getD v 0
            · subst hbfrom
              rw [getD_set_self _ _ _ _ (by rw [hr1len]; exact hb), hrow _ _ hb]
              rw [hcount _, hcount2 _, if_pos rfl, if_neg (fun hh => hbto hh.symm)]
              simp only [Int.ofNat_eq_coe]
              omega
            · rw [getD_set_ne _ _ _ _ _ (fun hh => hbfrom hh.symm), hrow _ _ hb]
              rw [hcount _, hcount2 _, if_neg (fun hh => hbfrom hh.symm),
                if_neg (fun hh => hbto hh.symm)]
      · rw [if_neg hve]
        apply List.map_congr_left
        intro b _
        have : e.filter (fun u => (st.solution.set v toB).getD u 0 == b) =
            e.filter (fun u => st.solution.getD u 0 == b) :=
          List.filter_congr (fun u hu => by
            rw [getD_set_ne _ _ _ _ _ (Ne.symm (ne_of_mem_of_not_mem hu hve))])
        rw [this]
    · rw [List.length_set]
      exact hlen
    · intro i hi
      rw [List.length_set] at hi
      by_cases hiv : i = v
      · subst hiv
        rw [getD_set_self _ _ _ _ hi]
        exact hto
      · rw [getD_set_ne _ _ _ _ _ (fun hh => hiv hh.symm)]
        exact hval i hi

theorem calcGain_destination (ev : GoldenEvaluator) (hg : HGraph) (e t : Nat)
    (sol : TP_partition) (pc : List Int) (nd : List (List Int)) :
    (CalculateHyperedgeGain ev hg e t sol pc nd).destination = Int.ofNat t := rfl

theorem calcGain_hyperedge_id (ev : GoldenEvaluator) (hg : HGraph) (e t : Nat)
    (sol : TP_partition) (pc : List Int) (nd : List (List Int)) :
    (CalculateHyperedgeGain ev hg e t sol pc nd).hyperedge = Int.ofNat e := rfl

theorem hyperedge_vertices_bounded (hg : HGraph) (hwf : WFHypergraph hg) (e : Nat) :
    ∀ u ∈ hg.hyperedges.getD e [], u < hg.num_vertices := by
  by_cases he : e < hg.hyperedges.length
  · exact fun u hu => (hwf.2 _ (getD_mem_of_lt _ _ _ he)).2 u hu
  · rw [getD_of_le_length _ _ _ (by omega)]
    intro u hu
    simp at hu

theorem foldMove_netdegs (ev : GoldenEvaluator) (hg : HGraph) (toB : Nat)
    (vs : List Nat) (st : PassState)
    (hwf : WFHypergraph hg)
    (hvs : ∀ u ∈ vs, u < hg.num_vertices)
    (hto : toB < ev.num_parts)
    (hlen : st.solution.length = hg.num_vertices)
    (hval : ∀ i, i < st.solution.length → st.solution.getD i 0 < ev.num_parts)
    (hnd : st.net_degs = GetNetDegrees ev hg st.solution) :
    (vs.foldl (fun s u => MoveVertex hg toB u s) st).net_degs =
      GetNetDegrees ev hg (vs.foldl (fun s u => MoveVertex hg toB u s) st).solution ∧
    (vs.foldl (fun s u => MoveVertex hg toB u s) st).solution.length =
      hg.num_vertices ∧
    (∀ i, i < (vs.foldl (fun s u => MoveVertex hg toB u s) st).solution.length →
      (vs.foldl (fun s u => MoveVertex hg toB u s) st).solution.getD i 0 <
        ev.num_parts) := by
  induction vs generalizing st with
  | nil => exact ⟨hnd, hlen, hval⟩
  | cons x xs ih =>
    rw [List.foldl_cons]
    obtain ⟨h1, h2, h3⟩ := moveVertex_netdegs ev hg toB x st hwf hlen hval hnd
      (hvs x (List.mem_cons_self x xs)) hto
    exact ih _ (fun u hu => hvs u (List.mem_cons_of_mem _ hu)) h2 h3 h1

theorem accept_netdegs (ev : GoldenEvaluator) (hg : HGraph) (g : HyperedgeGain)
    (st : PassState)
    (hwf : WFHypergraph hg)
    (hto : g.destination.toNat < ev.num_parts)
    (hlen : st.solution.length = hg.num_vertices)
    (hval : ∀ i, i < st.solution.length → st.solution.getD i 0 < ev.num_parts)
    (hnd : st.net_degs = GetNetDegrees ev hg st.solution) :
    (AcceptHyperedgeMove ev hg g st).net_degs =
      GetNetDegrees ev hg (AcceptHyperedgeMove ev hg g st).solution ∧
    (AcceptHyperedgeMove ev hg g st).solution.length = hg.num_vertices ∧
    (∀ i, i < (AcceptHyperedgeMove ev hg g st).solution.length →
      (AcceptHyperedgeMove ev hg g st).solution.getD i 0 < ev.num_parts) := by
  unfold AcceptHyperedgeMove
  dsimp only
  exact foldMove_netdegs ev hg g.destination.toNat _ st hwf
    (hyperedge_vertices_bounded hg hwf _) hto hlen hval hnd

theorem passLoop_netdegs (ev : GoldenEvaluator) (hg : HGraph) (mbb : List (List Int))
    (mm : Nat) (ids : List Nat) (st : PassState)
    (hwf : WFHypergraph hg)
    (hlen : st.solution.length = hg.num_vertices)
    (hval : ∀ i, i < st.solution.length → st.solution.getD i 0 < ev.num_parts)
    (hnd : st.net_degs = GetNetDegrees ev hg st.solution) :
    (PassLoop ev hg mbb mm ids st).net_degs =
      GetNetDegrees ev hg (PassLoop ev hg mbb mm ids st).solution ∧
    (PassLoop ev hg mbb mm ids st).solution.length = hg.num_vertices ∧
    (∀ i, i < (PassLoop ev hg mbb mm ids st).solution.length →
      (PassLoop ev hg mbb mm ids st).solution.getD i 0 < ev.num_parts) := by
  induction ids generalizing st with
  | nil => exact ⟨hnd, hlen, hval⟩
  | cons h t ih =>
    rw [PassLoop]
    split_ifs with h1 h2 h3
    · exact ih st hlen hval hnd
    · exact ⟨hnd, hlen, hval⟩
    · rcases findBestCandidate_inv ev hg mbb h { st with num_move := st.num_move + 1 }
        with ⟨hneg, _⟩ | ⟨tp, heq, htp, hleg, hrec, _⟩
      · omega
      · have hdest : (FindBestCandidate ev hg mbb h
            { st with num_move := st.num_move + 1 }).2.destination.toNat <
            ev.num_parts := by
          rw [hrec, calcGain_destination]
          simpa using htp
        obtain ⟨k1, k2, k3⟩ := accept_netdegs ev hg _
          { st with num_move := st.num_move + 1 } hwf hdest hlen hval hnd
        exact ih _ k2 k3 k1
    · exact ih _ hlen hval hnd

/-- C5: from a consistent initial state (net_degs equal to the from-scratch
GetNetDegrees of the solution), every state the pass reaches keeps net_degs
equal to the from-scratch recomputation on the current solution — every
accepted move updates the row of every hyperedge incident to a moved vertex —
and every row of the final net_degs sums to the number of incident vertices of
its hyperedge. -/
theorem pass_net_degs_consistent (ev : GoldenEvaluator) (hg : HGraph)
    (mbb : List (List Int)) (mm : Nat) (bb : List (List Int)) (pc : List Int)
    (sol : TP_partition) (flag : List Bool)
    (hwf : WFHypergraph hg)
    (hsol : SolutionOK ev.num_parts hg sol) :
    (Pass ev hg mbb mm bb (GetNetDegrees ev hg sol) pc sol flag).net_degs =
      GetNetDegrees ev hg
        (Pass ev hg mbb mm bb (GetNetDegrees ev hg sol) pc sol flag).solution ∧
    (∀ i, ((Pass ev hg mbb mm bb (GetNetDegrees ev hg sol) pc sol
        flag).net_degs.getD i []).sum =
      Int.ofNat ((hg.hyperedges.getD i []).length)) := by
  unfold Pass
  obtain ⟨k1, k2, k3⟩ := passLoop_netdegs ev hg mbb mm (List.range hg.num_hyperedges)
    { block_balance := bb, net_degs := GetNetDegrees ev hg sol, cur_paths_cost := pc
      solution := sol, visited_vertices_flag := flag, total_gain := 0, num_move := 0 }
    hwf hsol.1 hsol.2 rfl
  refine ⟨k1, fun i => ?_⟩
  rw [k1]
  exact netDegrees_row_sum ev hg _ k3 k2 hwf i

/-- Witness for C5 on the sample scenario with its cut solution. -/
theorem pass_net_degs_consistent_witness :
    WFHypergraph SampleGraph ∧
    SolutionOK SampleEvaluator.num_parts SampleGraph [0, 0, 1] ∧
    ((Pass SampleEvaluator SampleGraph SampleMaxBalance 100 [[2], [1]]
        (GetNetDegrees SampleEvaluator SampleGraph [0, 0, 1]) [] [0, 0, 1] []).net_degs =
      GetNetDegrees SampleEvaluator SampleGraph
        (Pass SampleEvaluator SampleGraph SampleMaxBalance 100 [[2], [1]]
          (GetNetDegrees SampleEvaluator SampleGraph [0, 0, 1]) [] [0, 0, 1]
          []).solution) :=
  ⟨by unfold WFHypergraph; decide, by unfold SolutionOK; decide,
    (pass_net_degs_consistent SampleEvaluator SampleGraph SampleMaxBalance 100
      [[2], [1]] [] [0, 0, 1] [] (by unfold WFHypergraph; decide)
      (by unfold SolutionOK; decide)).1⟩

theorem weight_entry_nonneg (hg : HGraph) (hw : NonnegVertexWeights hg) (v d : Nat) :
    0 ≤ (hg.vertex_weights.getD v []).getD d 0 := by
  by_cases hv : v < hg.vertex_weights.length
  · by_cases hd : d < (hg.vertex_weights.getD v []).length
    · exact hw _ (getD_mem_of_lt _ _ _ hv) _ (getD_mem_of_lt _ _ _ hd)
    · rw [getD_of_le_length _ _ _ (by omega)]
  · rw [getD_of_le_length hg.vertex_weights v [] (by omega)]
    simp [List.getD]

theorem addRow_length (row w : List Int) : (AddWeightToRow row w).length = row.length := by
  simp [AddWeightToRow]

theorem subRow_length (row w : List Int) :
    (SubWeightFromRow row w).length = row.length := by
  simp [SubWeightFromRow]

theorem addRow_getD_le (row w : List Int) (d : Nat) (hwd : 0 ≤ w.getD d 0) :
    (AddWeightToRow row w).getD d 0 ≤ row.getD d 0 + w.getD d 0 := by
  by_cases hd : d < row.length
  · unfold AddWeightToRow
    rw [getD_map_of_lt _ _ _ _ (by simpa using hd), List.getElem_range]
  · rw [getD_of_le_length _ _ _ (by rw [addRow_length]; omega),
      getD_of_le_length row d 0 (by omega)]
    omega

theorem subRow_getD_le (row w : List Int) (d : Nat) (hwd : 0 ≤ w.getD d 0) :
    (SubWeightFromRow row w).getD d 0 ≤ row.getD d 0 := by
  by_cases hd : d < row.length
  · unfold SubWeightFromRow
    rw [getD_map_of_lt _ _ _ _ (by simpa using hd), List.getElem_range]
    omega
  · rw [getD_of_le_length _ _ _ (by rw [subRow_length]; omega)]
    rw [getD_of_le_length row d 0 (by omega)]

theorem moveVertex_conforming (hg : HGraph) (toB v : Nat) (st : PassState)
    (hc : st.solution.getD v 0 = toB) : MoveVertex hg toB v st = st := by
  unfold MoveVertex
  dsimp only
  rw [if_pos hc]

theorem getD_set_eq_ite {α : Type} (l : List α) (i : Nat) (x d : α) :
    (l.set i x).getD i d = if i < l.length then x else d := by
  by_cases hb : i < l.length
  · rw [if_pos hb, getD_set_self _ _ _ _ hb]
  · rw [if_neg hb, getD_of_le_length (l.set i x) i d (by rw [List.length_set]; omega)]

theorem moveVertex_balance (hg : HGraph) (hw : NonnegVertexWeights hg) (toB v : Nat)
    (st : PassState) :
    (∀ b : Nat, ((MoveVertex hg toB v st).block_balance.getD b []).length =
      (st.block_balance.getD b []).length) ∧
    (∀ b d : Nat, b ≠ toB →
      ((MoveVertex hg toB v st).block_balance.getD b []).getD d 0 ≤
        (st.block_balance.getD b []).getD d 0) ∧
    (∀ d : Nat, ((MoveVertex hg toB v st).block_balance.getD toB []).getD d 0 ≤
      (st.block_balance.getD toB []).getD d 0 +
        (if st.solution.getD v 0 ≠ toB
          then (hg.vertex_weights.getD v []).getD d 0 else 0)) := by
  unfold MoveVertex
  dsimp only
  by_cases hc : st.solution.getD v 0 = toB
  · rw [if_pos hc]
    refine ⟨fun b => rfl, fun b d _ => le_refl _, fun d => ?_⟩
    rw [if_neg (fun hk => hk hc)]
    omega
  · rw [if_neg hc]
    dsimp only
    have hb1to : (st.block_balance.set (st.solution.getD v 0)
        (SubWeightFromRow (st.block_balance.getD (st.solution.getD v 0) [])
          (hg.vertex_weights.getD v []))).getD toB [] = st.block_balance.getD toB [] :=
      getD_set_ne _ _ _ _ _ hc
    refine ⟨?_, ?_, ?_⟩
    · intro b
      by_cases hbto : b = toB
      · rw [hbto, getD_set_eq_ite]
        split_ifs with hlen2
        · rw [addRow_length, hb1to]
        · rw [getD_of_le_length st.block_balance toB [] (by
            rw [List.length_set] at hlen2
            omega)]
      · rw [getD_set_ne _ _ _ _ _ (fun hh => hbto hh.symm)]
        by_cases hbfrom : b = st.solution.getD v 0
        · rw [hbfrom, getD_set_eq_ite]
          split_ifs with hlen2
          · rw [subRow_length]
          · rw [getD_of_le_length st.block_balance (st.solution.getD v 0) []
              (by omega)]
        · rw [getD_set_ne _ _ _ _ _ (fun hh => hbfrom hh.symm)]
    · intro b d hbto
      rw [getD_set_ne _ _ _ _ _ (fun hh => hbto hh.symm)]
      by_cases hbfrom : b = st.solution.getD v 0
      · rw [hbfrom, getD_set_eq_ite]
        split_ifs with hlen2
        · exact subRow_getD_le _ _ _ (weight_entry_nonneg hg hw v d)
        · have h1 : (([] : List Int)).getD d 0 = 0 := by simp [List.getD]
          rw [h1, getD_of_le_length st.block_balance (st.solution.getD v 0) []
            (by omega), h1]
      · rw [getD_set_ne _ _ _ _ _ (fun hh => hbfrom hh.symm)]
    · intro d
      rw [if_pos hc, getD_set_eq_ite]
      split_ifs with hlen2
      · rw [hb1to]
        exact addRow_getD_le _ _ _ (weight_entry_nonneg hg hw v d)
      · have hw2 := weight_entry_nonneg hg hw v d
        have h1 : (([] : List Int)).getD d 0 = 0 := by simp [List.getD]
        rw [h1, getD_of_le_length st.block_balance toB [] (by
          rw [List.length_set] at hlen2
          omega), h1]
        omega

theorem moveVertex_nonconf_sub (hg : HGraph) (toB v : Nat) (st : PassState) (u : Nat) :
    ((MoveVertex hg toB v st).solution.getD u 0 != toB) = true →
    (st.solution.getD u 0 != toB) = true := by
  unfold MoveVertex
  dsimp only
  split_ifs with hc
  · exact id
  · dsimp only
    by_cases huv : u = v
    · subst huv
      by_cases hu : u < st.solution.length
      · rw [getD_set_self _ _ _ _ hu]
        intro hk
        simp at hk
      · rw [getD_of_le_length _ _ _ (by rw [List.length_set]; omega),
          getD_of_le_length st.solution u 0 (by omega)]
        exact id
    · rw [getD_set_ne _ _ _ _ _ (fun hh => huv hh.symm)]
      exact id

theorem sum_filter_map_le (vs : List Nat) (p q : Nat → Bool) (f : Nat → Int)
    (hpq : ∀ u ∈ vs, p u = true → q u = true) (hf : ∀ u, 0 ≤ f u) :
    ((vs.filter p).map f).sum ≤ ((vs.filter q).map f).sum := by
  induction vs with
  | nil => simp
  | cons u t ih =>
    rw [List.filter_cons, List.filter_cons]
    have iht := ih (fun x hx hpx => hpq x (List.mem_cons_of_mem _ hx) hpx)
    by_cases hp : p u = true
    · rw [if_pos hp, if_pos (hpq u (List.mem_cons_self u t) hp)]
      simp only [List.map_cons, List.sum_cons]
      omega
    · rw [if_neg hp]
      by_cases hq : q u = true
      · rw [if_pos hq]
        simp only [List.map_cons, List.sum_cons]
        have := hf u
        omega
      · rw [if_neg hq]
        exact iht

theorem foldMove_row_length (hg : HGraph) (hw : NonnegVertexWeights hg) (toB : Nat)
    (vs : List Nat) (st : PassState) (b : Nat) :
    ((vs.foldl (fun s u => MoveVertex hg toB u s) st).block_balance.getD b []).length =
      (st.block_balance.getD b []).length := by
  induction vs generalizing st with
  | nil => rfl
  | cons x xs ih =>
    rw [List.foldl_cons, ih, (moveVertex_balance hg hw toB x st).1 b]

theorem foldMove_otherRow_le (hg : HGraph) (hw : NonnegVertexWeights hg) (toB : Nat)
    (vs : List Nat) (st : PassState) (b d : Nat) (hb : b ≠ toB) :
    ((vs.foldl (fun s u => MoveVertex hg toB u s) st).block_balance.getD b []).getD d 0 ≤
      (st.block_balance.getD b []).getD d 0 := by
  induction vs generalizing st with
  | nil => exact le_refl _
  | cons x xs ih =>
    rw [List.foldl_cons]
    exact le_trans (ih (MoveVertex hg toB x st))
      ((moveVertex_balance hg hw toB x st).2.1 b d hb)

theorem foldMove_toRow_le (hg : HGraph) (hw : NonnegVertexWeights hg) (toB : Nat)
    (vs : List Nat) (st : PassState) (d : Nat) :
    ((vs.foldl (fun s u => MoveVertex hg toB u s) st).block_balance.getD toB
      []).getD d 0 ≤
      (st.block_balance.getD toB []).getD d 0 +
        ((vs.filter (fun u => st.solution.getD u 0 != toB)).map
          (fun u => (hg.vertex_weights.getD u []).getD d 0)).sum := by
  induction vs generalizing st with
  | nil => simp
  | cons x xs ih =>
    rw [List.foldl_cons, List.filter_cons]
    by_cases hx : (st.solution.getD x 0 != toB) = true
    · rw [if_pos hx]
      have step := (moveVertex_balance hg hw toB x st).2.2 d
      rw [if_pos (by simpa using hx)] at step
      have ihx := ih (MoveVertex hg toB x st)
      have hsub := sum_filter_map_le xs
        (fun u => (MoveVertex hg toB x st).solution.getD u 0 != toB)
        (fun u => st.solution.getD u 0 != toB)
        (fun u => (hg.vertex_weights.getD u []).getD d 0)
        (fun u _ hpu => moveVertex_nonconf_sub hg toB x st u hpu)
        (fun u => weight_entry_nonneg hg hw u d)
      simp only [List.map_cons, List.sum_cons]
      omega
    · rw [if_neg hx]
      have hxeq : st.solution.getD x 0 = toB := by simpa using hx
      rw [moveVertex_conforming hg toB x st hxeq]
      exact ih st

theorem legality_entries (hg : HGraph) (e toB : Nat) (sol : TP_partition)
    (bb mbb : List (List Int))
    (hleg : CheckHyperedgeMoveLegality hg e toB sol bb mbb = true) :
    ∀ d, d < (mbb.getD toB []).length →
      (bb.getD toB []).getD d 0 +
        (((hg.hyperedges.getD e []).filter (fun u => sol.getD u 0 != toB)).map
          (fun u => (hg.vertex_weights.getD u []).getD d 0)).sum ≤
        (mbb.getD toB []).getD d 0 := by
  intro d hd
  unfold CheckHyperedgeMoveLegality at hleg
  dsimp only at hleg
  have := List.all_eq_true.mp hleg d (List.mem_range.mpr hd)
  exact of_decide_eq_true this

theorem accept_balance (ev : GoldenEvaluator) (hg : HGraph) (g : HyperedgeGain)
    (st : PassState) (mbb : List (List Int))
    (hw : NonnegVertexWeights hg)
    (hbw : BalanceWithin st.block_balance mbb)
    (hdims : ∀ b, b < ev.num_parts →
      (st.block_balance.getD b []).length ≤ (mbb.getD b []).length)
    (hto : g.destination.toNat < ev.num_parts)
    (hleg : CheckHyperedgeMoveLegality hg g.hyperedge.toNat g.destination.toNat
      st.solution st.block_balance mbb = true) :
    BalanceWithin (AcceptHyperedgeMove ev hg g st).block_balance mbb ∧
    (∀ b, b < ev.num_parts →
      ((AcceptHyperedgeMove ev hg g st).block_balance.getD b []).length ≤
        (mbb.getD b []).length) := by
  unfold AcceptHyperedgeMove
  dsimp only
  constructor
  · intro b d
    by_cases hbto : b = g.destination.toNat
    · rw [hbto]
      by_cases hd : d < (mbb.getD g.destination.toNat []).length
      · have hfold := foldMove_toRow_le hg hw g.destination.toNat
          (hg.hyperedges.getD g.hyperedge.toNat []) st d
        have hl := legality_entries hg g.hyperedge.toNat g.destination.toNat
          st.solution st.block_balance mbb hleg d hd
        omega
      · rw [getD_of_le_length (mbb.getD g.destination.toNat []) d 0 (by omega)]
        rw [getD_of_le_length
          (((hg.hyperedges.getD g.hyperedge.toNat []).foldl
            (fun s u => MoveVertex hg g.destination.toNat u s)
            st).block_balance.getD g.destination.toNat [])
          d 0 (by
            rw [foldMove_row_length hg hw]
            have := hdims g.destination.toNat hto
            omega)]
    · exact le_trans (foldMove_otherRow_le hg hw _ _ st b d hbto) (hbw b d)
  · intro b hb
    rw [foldMove_row_length hg hw]
    exact hdims b hb

theorem passLoop_balance (ev : GoldenEvaluator) (hg : HGraph) (mbb : List (List Int))
    (mm : Nat) (ids : List Nat) (st : PassState)
    (hw : NonnegVertexWeights hg)
    (hbw : BalanceWithin st.block_balance mbb)
    (hdims : ∀ b, b < ev.num_parts →
      (st.block_balance.getD b []).length ≤ (mbb.getD b []).length) :
    BalanceWithin (PassLoop ev hg mbb mm ids st).block_balance mbb ∧
    (∀ b, b < ev.num_parts →
      ((PassLoop ev hg mbb mm ids st).block_balance.getD b []).length ≤
        (mbb.getD b []).length) := by
  induction ids generalizing st with
  | nil => exact ⟨hbw, hdims⟩
  | cons h t ih =>
    rw [PassLoop]
    split_ifs with h1 h2 h3
    · exact ih st hbw hdims
    · exact ⟨hbw, hdims⟩
    · rcases findBestCandidate_inv ev hg mbb h { st with num_move := st.num_move + 1 }
        with ⟨hneg, _⟩ | ⟨tp, heq, htp, hleg, hrec, _⟩
      · omega
      · have hto : (FindBestCandidate ev hg mbb h
            { st with num_move := st.num_move + 1 }).2.destination.toNat <
            ev.num_parts := by
          rw [hrec, calcGain_destination]
          simpa using htp
        have hleg2 : CheckHyperedgeMoveLegality hg
            (FindBestCandidate ev hg mbb h
              { st with num_move := st.num_move + 1 }).2.hyperedge.toNat
            (FindBestCandidate ev hg mbb h
              { st with num_move := st.num_move + 1 }).2.destination.toNat
            st.solution st.block_balance mbb = true := by
          rw [hrec, calcGain_destination, calcGain_hyperedge_id]
          simpa using hleg
        obtain ⟨k1, k2⟩ := accept_balance ev hg _
          { st with num_move := st.num_move + 1 } mbb hw hbw hdims hto hleg2
        exact ih _ k1 k2
    · exact ih _ hbw hdims

/-- C6: TPgreedyRefine::Pass commits a move only to a candidate block that
passed CheckHyperedgeMoveLegality (spec: moving the hyperedge's non-conforming
vertices into the block must not push any dimension of its balance above
max_block_balance), and consequently, starting from a balance within
max_block_balance with dimensionally consistent rows and nonnegative vertex
weights, every entry of block_balance remains at or below max_block_balance
after the whole pass (so after every accepted move). -/
theorem pass_balance_never_violated (ev : GoldenEvaluator) (hg : HGraph)
    (mbb : List (List Int)) (mm : Nat) (bb nd : List (List Int)) (pc : List Int)
    (sol : TP_partition) (flag : List Bool)
    (hw : NonnegVertexWeights hg)
    (hbw : BalanceWithin bb mbb)
    (hdims : BalanceDimsCovered ev.num_parts bb mbb) :
    BalanceWithin (Pass ev hg mbb mm bb nd pc sol flag).block_balance mbb ∧
    (∀ (h : Nat) (st : PassState), (FindBestCandidate ev hg mbb h st).1 > -1 →
      ∃ to_pid : Nat, (FindBestCandidate ev hg mbb h st).1 = Int.ofNat to_pid ∧
        CheckHyperedgeMoveLegality hg h to_pid st.solution st.block_balance mbb =
          true) := by
  constructor
  · unfold Pass
    exact (passLoop_balance ev hg mbb mm (List.range hg.num_hyperedges)
      { block_balance := bb, net_degs := nd, cur_paths_cost := pc, solution := sol
        visited_vertices_flag := flag, total_gain := 0, num_move := 0 }
      hw hbw hdims).1
  · intro h st hpos
    rcases findBestCandidate_inv ev hg mbb h st with ⟨hneg, _⟩ |
      ⟨tp, heq, _, hleg, _, _⟩
    · omega
    · exact ⟨tp, heq, hleg⟩

theorem sample_balance_within : BalanceWithin [[2], [1]] SampleMaxBalance := by
  intro b d
  rcases b with _ | _ | b
  · rcases d with _ | d
    · decide
    · simp [SampleMaxBalance, List.getD]
  · rcases d with _ | d
    · decide
    · simp [SampleMaxBalance, List.getD]
  · simp [SampleMaxBalance, List.getD]

/-- Witness for C6 on the sample scenario. -/
theorem pass_balance_never_violated_witness :
    NonnegVertexWeights SampleGraph ∧
    BalanceWithin [[2], [1]] SampleMaxBalance ∧
    BalanceDimsCovered SampleEvaluator.num_parts [[2], [1]] SampleMaxBalance ∧
    BalanceWithin (Pass SampleEvaluator SampleGraph SampleMaxBalance 100 [[2], [1]]
      [[2, 1]] [] [0, 0, 1] []).block_balance SampleMaxBalance :=
  ⟨by unfold NonnegVertexWeights; decide, sample_balance_within,
    by unfold BalanceDimsCovered; decide,
    (pass_balance_never_violated SampleEvaluator SampleGraph SampleMaxBalance 100
      [[2], [1]] [[2, 1]] [] [0, 0, 1] [] (by unfold NonnegVertexWeights; decide)
      sample_balance_within (by unfold BalanceDimsCovered; decide)).1⟩

/-- Witness for C4 at two concrete equal-gain records. -/
theorem tie_break_smaller_weight_then_incumbent_witness :
    DefaultHyperedgeGain.gain = DefaultHyperedgeGain.gain ∧
    GetHyperedgeVerWtSum SampleGraph DefaultHyperedgeGain.hyperedge =
      GetHyperedgeVerWtSum SampleGraph DefaultHyperedgeGain.hyperedge ∧
    CompareGainHyperedge SampleGraph DefaultHyperedgeGain DefaultHyperedgeGain = false :=
  ⟨rfl, rfl,
    (tie_break_smaller_weight_then_incumbent SampleGraph DefaultHyperedgeGain
      DefaultHyperedgeGain).2 rfl rfl⟩

end par
